import Mathlib

/-!
# GenerateCSV: the classification engine

A shallow embedding of `GenerateCSV.cpp`: the rule table `rules`, the two file
filters `should_skip_file` and `is_valid_map_file`, the classifier
`classify_and_format`, and the part of `main` that filters the file list and
tallies the type column.

Conventions of the embedding.

* A `std::string` is a `List Char`, one element per character.
* A `std::filesystem::path` is its generic-format text (separator `/`).  The
  program only handles paths of regular files found by enumerating a directory,
  so a path has no empty component, and a relative path has neither a root name
  nor a root directory.  `filename`, `parent_path`, `extension` and `stem` follow
  the decomposition the C++ standard gives for such paths.
* `classify_and_format` receives `relPath`, the value of
  `fs::relative(filePath, baseDir)`; `filePath` is `baseDir / relPath`, so both
  have the same file name, stem and extension.  The global `g_mapCsvMode` is an
  explicit argument.
* `classify_and_format_fs` is the whole call, from `baseDir` and `filePath`, in a state
  of the file system and of the globals: `fs::relative` resolves symbolic links, so
  `relPath` need not be the text of `filePath` after `baseDir`.  When no symbolic link is
  involved the two agree and the call is `classify_and_format` on that text.
* A `std::regex` is a syntax tree together with its `icase` flag, and
  `regex_search` asks whether the tree matches somewhere in the text.
-/

namespace GenerateCSV

/-- The contents of a `std::string`. -/
abbrev Str := List Char

/-- The function `std::tolower` of the "C" locale: only `A`..`Z` change. -/
def tolower (c : Char) : Char := c.toLower

/-- The call `std::transform(s.begin(), s.end(), s.begin(), tolower)`. -/
def lower (s : Str) : Str := s.map tolower

/-! ## Regular expressions (the ECMAScript subset the rule table uses) -/

/-- Syntax of the regular expressions that occur in the rule table. -/
inductive Regex where
  /-- the empty expression -/
  | eps
  /-- one literal character; the escape `\.` is the literal `.` -/
  | chr (c : Char)
  /-- the negated class `[^c]` -/
  | notChr (c : Char)
  /-- the assertion `^`: the start of the text (a file name has no line terminator) -/
  | bol
  /-- the assertion `$`: the end of the text -/
  | eol
  /-- concatenation -/
  | seq (a b : Regex)
  /-- the alternation `a|b` -/
  | alt (a b : Regex)
  /-- the greedy repetition `a+` -/
  | plus (a : Regex)
  deriving DecidableEq, Repr

/-- A `std::regex` value: the expression and whether `std::regex::icase` was given. -/
structure BasicRegex where
  re : Regex
  icase : Bool
  deriving DecidableEq, Repr

/-- Character translation of the regex traits: `translate_nocase` under `icase`. -/
def translate (icase : Bool) (c : Char) : Char := if icase then tolower c else c

/-- End positions of one or more consecutive matches of a body whose end positions are
given by `step`.  A repetition goes on only after an iteration that consumed input, so
`fuel` larger than the length of the text is never exhausted. -/
def plusEnds (step : Nat → List Nat) : Nat → Nat → List Nat
  | 0, _ => []
  | fuel + 1, i => (step i).flatMap fun j => j :: (if i < j then plusEnds step fuel j else [])

/-- All positions at which a match of the expression that starts at position `i` of the
text `s` can end. -/
def Regex.ends (icase : Bool) (s : Str) : Regex → Nat → List Nat
  | .eps, i => [i]
  | .chr c, i =>
    match s.get? i with
    | some x => if translate icase x = translate icase c then [i + 1] else []
    | none => []
  | .notChr c, i =>
    match s.get? i with
    | some x => if translate icase x = translate icase c then [] else [i + 1]
    | none => []
  | .bol, i => if i = 0 then [i] else []
  | .eol, i => if i = s.length then [i] else []
  | .seq a b, i => (a.ends icase s i).flatMap fun j => b.ends icase s j
  | .alt a b, i => a.ends icase s i ++ b.ends icase s i
  | .plus a, i => plusEnds (fun j => a.ends icase s j) (s.length + 1) i

/-- The call `std::regex_search(s, e)`: some match starts at some position of `s`. -/
def regex_search (s : Str) (e : BasicRegex) : Bool :=
  (List.range (s.length + 1)).any fun i => !(e.re.ends e.icase s i).isEmpty

/-- The expression matching the characters of `w` in sequence. -/
def Regex.lit : Str → Regex
  | [] => .eps
  | [c] => .chr c
  | c :: cs => .seq (.chr c) (Regex.lit cs)

/-- The group `(w|v1|v2|...)` of literal alternatives; just `w` when there is one. -/
def Regex.oneOf : Str → List Str → Regex
  | w, [] => Regex.lit w
  | w, v :: vs => .alt (Regex.lit w) (Regex.oneOf v vs)

/-- The expression `\.(w|v1|...)$`, built with `std::regex::icase`. -/
def dotExt (w : String) (vs : List String) : BasicRegex :=
  ⟨.seq (.chr '.') (.seq (Regex.oneOf w.toList (vs.map String.toList)) .eol), true⟩

/-- The expression `^[^.]+$`, built with `std::regex::icase`. -/
def noDot : BasicRegex :=
  ⟨.seq .bol (.seq (.plus (.notChr '.')) .eol), true⟩

/-! ## Path decomposition -/

/-- The member `path::filename()`: the text after the last separator. -/
def filename (p : Str) : Str := p.rtakeWhile fun c => c != '/'

/-- The member `path::parent_path()`: the file name and the separators before it removed. -/
def parent_path (p : Str) : Str :=
  (p.rdropWhile fun c => c != '/').rdropWhile fun c => c == '/'

/-- The member `path::extension()`: from the last period of the file name to its end;
empty for `..`, for a name without a period, and when the only period is the first
character. -/
def extension (p : Str) : Str :=
  let f := filename p
  if f = ['.', '.'] then []
  else if (f.rdropWhile fun c => c != '.').length ≤ 1 then []
  else '.' :: f.rtakeWhile fun c => c != '.'

/-- The member `path::stem()`: the file name without its extension. -/
def stem (p : Str) : Str :=
  let f := filename p
  f.take (f.length - (extension p).length)

/-! ## The rule table -/

/-- Classification rule for mapping folder + extension to a type. -/
structure Rule where
  folder : Str
  extensionPattern : BasicRegex
  type : Str
  forceFullPath : Bool
  deriving DecidableEq, Repr

/-- One row of the table. -/
def Rule.row (folder : String) (pat : BasicRegex) (type : String) (force : Bool) : Rule :=
  ⟨folder.toList, pat, type.toList, force⟩

/-- The table `rules`, in the order of the source. -/
def rules : List Rule := [
  Rule.row "xsurface"         (dotExt "xsb" [])                       "xmodelsurfs"     false,
  Rule.row "xmodel"           (dotExt "xmb" [])                       "xmodel"          false,
  Rule.row "xanime"           (dotExt "xab" [])                       "xanim"           false,
  Rule.row "weapons"          (dotExt "json" [])                      "weapon"          false,
  Rule.row "vision"           (dotExt "vision" [])                    "rawfile"         false,
  Rule.row "vehicles"         (dotExt "json" [])                      "vehicle"         false,
  Rule.row "tracer"           noDot                                   "tracer"          false,
  Rule.row "techsets"         (dotExt "cbi" ["cbt"])                  "material"        false,
  Rule.row "techsets/ps"      (dotExt "hlsl_h2" ["cso"])              "pixelshader"     false,
  Rule.row "techsets/vs"      (dotExt "hlsl_h2" ["cso"])              "vertexshader"    false,
  Rule.row "sounds"           (dotExt "json" [])                      "sound"           false,
  Rule.row "sndcurve"         (dotExt "json" [])                      "sndcurve"        false,
  Rule.row "sndcontext"       noDot                                   "sndcontext"      false,
  Rule.row "rumble"           noDot                                   "rawfile"         true,
  Rule.row "reverbsendcurve"  (dotExt "json" [])                      "sndcurve"        false,
  Rule.row "physpreset"       (dotExt "pp" [])                        "physpreset"      false,
  Rule.row "physcollmap"      (dotExt "pc" [])                        "phys_collmap"    false,
  Rule.row "materials"        (dotExt "json" [])                      "material"        false,
  Rule.row "lpfcurve"         (dotExt "json" [])                      "lpfcurve"        false,
  Rule.row "loaded_sound"     (dotExt "flac" ["wav", "mp3"])          "loaded_sound"    false,
  Rule.row "images"           (dotExt "h1Image" ["tga", "dds"])       "image"           false,
  Rule.row "effects"          (dotExt "fxe" [])                       "fx"              false,
  Rule.row "aim_assist"       (dotExt "graph" [])                     "rawfile"         false,
  Rule.row "animtrees"        (dotExt "atr" [])                       "rawfile"         false,
  Rule.row "attachments"      (dotExt "json" [])                      "attachment"      false,
  Rule.row "info"             noDot                                   "rawfile"         false,
  Rule.row "maps"             (dotExt "gsc" ["gscbin"])               "scriptfile"      false,
  Rule.row "mp"               (dotExt "script" ["cfg", "txt", "recipe"]) "rawfile"      false,
  Rule.row "netconststrings"  (dotExt "json" [])                      "netconststrings" false,
  Rule.row "skeletonscript"   noDot                                   "skeletonscript"  false,
  Rule.row "transient"        (dotExt "asslist" [])                   "rawfile"         false,
  Rule.row "ui"               (dotExt "lua" [])                       "luafile"         false,
  Rule.row "ui_mp"            (dotExt "txt" [])                       "menufile"        false,
  Rule.row "localizedstrings" noDot                                   "localize"        false
]

/-! ## The file filters -/

/-- The filter `should_skip_file`. -/
def should_skip_file (file : Str) : Bool :=
  extension file == ".d3dbsp".toList

/-- The filter `is_valid_map_file`. -/
def is_valid_map_file (file : Str) : Bool :=
  let ext := lower (extension file)
  if ext == ".gsc".toList || ext == ".fxe".toList || ext == ".xmb".toList
      || ext == ".xsb".toList then
    true
  else if ext == ".json".toList && filename (parent_path file) == "sounds".toList then
    true
  else
    false

/-- The two `files.erase(std::remove_if(...))` steps of `main`: files to skip are
removed for both kinds of CSV, and for a map CSV (`csvType == 1`) only the valid map
files are kept. -/
def select_files (csvType : Nat) (files : List Str) : List Str :=
  let files := files.filter fun f => !should_skip_file f
  if csvType = 1 then files.filter fun f => is_valid_map_file f else files

/-! ## The classifier -/

/-- The count `std::count(rel.begin(), rel.end(), '/')`. -/
def depthOf (rel : Str) : Nat := rel.count '/'

/-- The variable `ext` of `classify_and_format`: the extension without its leading
period, lower-cased. -/
def extOf (p : Str) : Str :=
  let ext := extension p
  let ext := if !ext.isEmpty && ext.head? == some '.' then ext.drop 1 else ext
  lower ext

/-- The test `s.rfind(pfx, 0) == 0`: the text `s` starts with `pfx`. -/
def starts_with (s pfx : Str) : Bool := pfx.isPrefixOf s

/-- The condition of the map CSV special case. -/
def mapOverride (mapCsvMode : Bool) (rel : Str) : Bool :=
  mapCsvMode && decide (depthOf rel ≥ 1) && starts_with rel "maps/".toList
    && extOf rel == "gsc".toList

/-- The type given to a file that lies directly in the base directory. -/
def rootType (ext : Str) : Str :=
  if ext == "csv".toList then "stringtable".toList
  else if ext == "gsc".toList || ext == "lua".toList then "rawfile".toList
  else if ext == "gscbin".toList then "scriptfile".toList
  else "rawfile".toList

/-- The condition under which the scan stops at `rule`. -/
def ruleMatches (rule : Rule) (rel : Str) : Bool :=
  starts_with rel (rule.folder ++ ['/']) && regex_search (filename rel) rule.extensionPattern

/-- The line returned from inside the scan when `rule` matches. -/
def ruleLine (rule : Rule) (rel : Str) : Str :=
  let pfx := rule.folder ++ ['/']
  let outPath :=
    if rule.forceFullPath || decide (depthOf rel ≥ 2) then
      parent_path rel ++ ['/'] ++ stem rel
    else
      stem rel
  let outPath :=
    if starts_with outPath pfx && decide (outPath.length > pfx.length) then
      outPath.drop pfx.length
    else
      outPath
  rule.type ++ [','] ++ outPath

/-- The loop `for (const auto& rule : rules)`: the line of the first rule that
matches, if any. -/
def scan : List Rule → Str → Option Str
  | [], _ => none
  | rule :: rest, rel => if ruleMatches rule rel then some (ruleLine rule rel) else scan rest rel

/-- The variable `noExt` of the fallback: `rel` up to its last period
(`rel.find_last_of('.')`), or all of `rel` when it has none. -/
def noExt (rel : Str) : Str :=
  if rel.contains '.' then (rel.rdropWhile fun c => c != '.').dropLast else rel

/-- The fallback line: `rawfile,` and `noExt`. -/
def fallbackLine (rel : Str) : Str :=
  "rawfile,".toList ++ noExt rel

/-- The classifier, over an arbitrary table. -/
def classify_with (table : List Rule) (mapCsvMode : Bool) (rel : Str) : Str :=
  if mapOverride mapCsvMode rel then
    "rawfile,".toList ++ rel
  else if depthOf rel = 0 then
    rootType (extOf rel) ++ [','] ++ stem rel
  else
    match scan table rel with
    | some line => line
    | none => fallbackLine rel

/-- The function `classify_and_format`, with the value of `g_mapCsvMode` and the path of
the file relative to `baseDir` as arguments. -/
def classify_and_format (mapCsvMode : Bool) (rel : Str) : Str :=
  classify_with rules mapCsvMode rel

/-- The type column as `main` tallies it: the text before the first comma, or the
whole line when it has no comma. -/
def tallyType (line : Str) : Str :=
  if line.contains ',' then line.takeWhile fun c => c != ',' else line

/-- The text of a line before its first comma. -/
def typePart (line : Str) : Str := line.takeWhile fun c => c != ','

/-- The type tokens the classifier can emit: the three written in its body and the
`type` fields of the table. -/
def typeTokens : List Str :=
  ["stringtable".toList, "scriptfile".toList, "rawfile".toList] ++ rules.map Rule.type

/-- The position in the table of the rule for `folder` (the length of the table when
there is none). -/
def folderIndex (folder : String) : Nat :=
  (rules.map Rule.folder).indexOf folder.toList

/-! ## The file system, the globals and the whole call -/

/-- The path `rel` with its extension replaced by the text `e`. -/
def withExtension (rel e : Str) : Str :=
  rel.take (rel.length - (extension rel).length) ++ e

/-- The rule `r` with its `forceFullPath` set to `b`. -/
def setForce (b : Bool) (r : Rule) : Rule :=
  ⟨r.folder, r.extensionPattern, r.type, b⟩

/-! ## Lemmas: regular expressions -/

theorem translate_true : translate true = tolower := by
  funext c; simp [translate]

theorem mem_ends_chr (ic : Bool) (s : Str) (c : Char) (i j : Nat) :
    j ∈ (Regex.chr c).ends ic s i ↔
      j = i + 1 ∧ ∃ x, s[i]? = some x ∧ translate ic x = translate ic c := by
  simp only [Regex.ends, List.get?_eq_getElem?]
  cases h : s[i]? with
  | none => simp
  | some x => by_cases hx : translate ic x = translate ic c <;> simp [hx]

theorem ends_lit_cons (ic : Bool) (s : Str) (c : Char) (cs : Str) (i : Nat) :
    (Regex.lit (c :: cs)).ends ic s i =
      ((Regex.chr c).ends ic s i).flatMap fun j => (Regex.lit cs).ends ic s j := by
  cases cs with
  | nil =>
    simp only [Regex.lit, Regex.ends]
    exact (List.flatMap_singleton' _).symm
  | cons d ds => simp [Regex.lit, Regex.ends]

/-- A literal word matches at `i` exactly when the text continues, up to translation,
with the word; the match ends right after it. -/
theorem mem_ends_lit (ic : Bool) (s : Str) (w : Str) (i j : Nat) :
    j ∈ (Regex.lit w).ends ic s i ↔
      j = i + w.length ∧ w.map (translate ic) <+: (s.drop i).map (translate ic) := by
  induction w generalizing i with
  | nil => simp [Regex.lit, Regex.ends]
  | cons c cs ih =>
    rw [ends_lit_cons, List.mem_flatMap]
    constructor
    · rintro ⟨k, hk, hj⟩
      obtain ⟨rfl, x, hx, hxc⟩ := (mem_ends_chr ic s c i k).1 hk
      obtain ⟨rfl, hpre⟩ := (ih (i + 1)).1 hj
      obtain ⟨hi, rfl⟩ := List.getElem?_eq_some_iff.1 hx
      refine ⟨by rw [List.length_cons]; omega, ?_⟩
      rw [List.drop_eq_getElem_cons hi, List.map_cons, List.map_cons, hxc]
      exact (List.prefix_cons_inj _).2 hpre
    · rintro ⟨rfl, hpre⟩
      by_cases hi : i < s.length
      · rw [List.drop_eq_getElem_cons hi, List.map_cons, List.map_cons] at hpre
        obtain ⟨hc, hpre⟩ := List.cons_prefix_cons.1 hpre
        refine ⟨i + 1, (mem_ends_chr ic s c i _).2 ⟨rfl, s[i], ?_, hc.symm⟩,
          (ih (i + 1)).2 ⟨by rw [List.length_cons]; omega, hpre⟩⟩
        exact List.getElem?_eq_getElem hi
      · rw [List.drop_eq_nil_of_le (by omega)] at hpre
        simp at hpre

theorem mem_ends_oneOf (ic : Bool) (s : Str) (w : Str) (vs : List Str) (i j : Nat) :
    j ∈ (Regex.oneOf w vs).ends ic s i ↔ ∃ u ∈ w :: vs, j ∈ (Regex.lit u).ends ic s i := by
  induction vs generalizing w with
  | nil => simp [Regex.oneOf]
  | cons v vs ih =>
    simp only [Regex.oneOf, Regex.ends, List.mem_append, ih, List.mem_cons, exists_eq_or_imp]

theorem regex_search_iff (s : Str) (e : BasicRegex) :
    regex_search s e = true ↔ ∃ i j, i ≤ s.length ∧ j ∈ e.re.ends e.icase s i := by
  simp only [regex_search, List.any_eq_true, List.mem_range, Bool.not_eq_true']
  constructor
  · rintro ⟨i, hi, hne⟩
    cases h : e.re.ends e.icase s i with
    | nil => simp [h] at hne
    | cons j js => exact ⟨i, j, by omega, by rw [h]; simp⟩
  · rintro ⟨i, j, hi, hj⟩
    refine ⟨i, by omega, ?_⟩
    cases h : e.re.ends e.icase s i with
    | nil => simp [h] at hj
    | cons j js => rfl

/-- What `\.(w|v1|...)$` searches for: the text ends, ignoring case, with a period
followed by one of the alternatives. -/
theorem regex_search_dotExt (s : Str) (w : String) (vs : List String) :
    regex_search s (dotExt w vs) = true ↔
      ∃ u ∈ w.toList :: vs.map String.toList, lower ('.' :: u) <:+ lower s := by
  rw [regex_search_iff]
  simp only [dotExt, Regex.ends, List.mem_flatMap, mem_ends_oneOf]
  constructor
  · rintro ⟨i, j, hi, k, hk, m, ⟨u, hu, hm⟩, hj⟩
    refine ⟨u, hu, ?_⟩
    have hlit : m ∈ (Regex.lit ('.' :: u)).ends true s i := by
      rw [ends_lit_cons, List.mem_flatMap]; exact ⟨k, hk, hm⟩
    obtain ⟨rfl, hpre⟩ := (mem_ends_lit true s _ i m).1 hlit
    have hlen : i + ('.' :: u).length = s.length := by
      by_contra h
      rw [if_neg h] at hj
      exact absurd hj (List.not_mem_nil _)
    have heq := hpre.eq_of_length (by simp at hlen ⊢; omega)
    rw [translate_true] at heq
    show List.map tolower ('.' :: u) <:+ List.map tolower s
    rw [heq, List.map_drop]
    exact List.drop_suffix _ _
  · rintro ⟨u, hu, hsuf⟩
    have hlen := hsuf.length_le
    simp only [lower, List.length_map] at hlen
    have heq := List.suffix_iff_eq_drop.1 hsuf
    simp only [lower, List.length_map] at heq
    refine ⟨s.length - ('.' :: u).length, s.length, by omega, ?_⟩
    have hlit : s.length ∈ (Regex.lit ('.' :: u)).ends true s (s.length - ('.' :: u).length) := by
      rw [mem_ends_lit]
      refine ⟨by omega, ?_⟩
      rw [translate_true, List.map_drop, ← heq]
    rw [ends_lit_cons, List.mem_flatMap] at hlit
    obtain ⟨k, hk, hm⟩ := hlit
    exact ⟨k, hk, s.length, ⟨u, hu, hm⟩, by simp⟩

theorem tolower_eq_dot (x : Char) : tolower x = '.' ↔ x = '.' := by
  constructor
  · intro h
    unfold tolower Char.toLower at h
    simp only at h
    split at h
    · rename_i hr
      exfalso
      have h1 := congrArg Char.toNat h
      obtain ⟨hlo, hhi⟩ := hr
      generalize x.toNat = n at h1 hlo hhi
      interval_cases n <;> revert h1 <;> decide
    · exact h
  · rintro rfl
    decide

theorem mem_ends_notDot (s : Str) (i j : Nat) :
    j ∈ (Regex.notChr '.').ends true s i ↔ j = i + 1 ∧ ∃ x, s[i]? = some x ∧ x ≠ '.' := by
  simp only [Regex.ends, List.get?_eq_getElem?, translate_true]
  have hd : tolower '.' = '.' := by decide
  cases h : s[i]? with
  | none => simp
  | some x =>
    rw [hd]
    by_cases hx : x = '.'
    · simp [hx, hd]
    · have : ¬ tolower x = '.' := fun e => hx ((tolower_eq_dot x).1 e)
      simp [hx, this]

/-- The repetition `[^.]+` started at `i` ends at `j` exactly when `j` is past `i`, within
the fuel, and the text has no period from `i` up to `j`. -/
theorem mem_plusEnds_notDot (s : Str) (fuel i j : Nat) :
    j ∈ plusEnds (fun k => (Regex.notChr '.').ends true s k) fuel i ↔
      i < j ∧ j ≤ i + fuel ∧ ∀ k, i ≤ k → k < j → ∃ x, s[k]? = some x ∧ x ≠ '.' := by
  induction fuel generalizing i with
  | zero =>
    simp only [plusEnds, List.not_mem_nil, false_iff]
    omega
  | succ fuel ih =>
    simp only [plusEnds, List.mem_flatMap, mem_ends_notDot, List.mem_cons]
    constructor
    · rintro ⟨m, ⟨rfl, hx⟩, hj | hj⟩
      · subst hj
        refine ⟨by omega, by omega, fun k hk1 hk2 => ?_⟩
        have : k = i := by omega
        subst this
        exact hx
      · rw [if_pos (by omega)] at hj
        obtain ⟨h1, h2, h3⟩ := (ih (i + 1)).1 hj
        refine ⟨by omega, by omega, fun k hk1 hk2 => ?_⟩
        by_cases hk : k = i
        · subst hk; exact hx
        · exact h3 k (by omega) hk2
    · rintro ⟨h1, h2, h3⟩
      refine ⟨i + 1, ⟨rfl, h3 i (le_refl _) h1⟩, ?_⟩
      by_cases hj : j = i + 1
      · exact Or.inl hj
      · right
        rw [if_pos (by omega)]
        exact (ih (i + 1)).2 ⟨by omega, by omega, fun k hk1 hk2 => h3 k (by omega) hk2⟩

/-- What `^[^.]+$` searches for: a non-empty text without a period. -/
theorem regex_search_noDot (s : Str) :
    regex_search s noDot = true ↔ s ≠ [] ∧ '.' ∉ s := by
  rw [regex_search_iff]
  simp only [noDot, Regex.ends, List.mem_flatMap]
  constructor
  · rintro ⟨i, j, hi, k, hk, m, hm, hj⟩
    have hi0 : i = 0 := by
      by_contra h
      rw [if_neg h] at hk
      exact absurd hk (List.not_mem_nil _)
    subst hi0
    rw [if_pos rfl, List.mem_singleton] at hk
    subst hk
    have hlen : m = s.length := by
      by_contra h
      rw [if_neg h] at hj
      exact absurd hj (List.not_mem_nil _)
    subst hlen
    obtain ⟨h1, _, h3⟩ := (mem_plusEnds_notDot s _ 0 _).1 hm
    refine ⟨List.length_pos.1 h1, fun hdot => ?_⟩
    obtain ⟨n, hn, hsn⟩ := List.getElem_of_mem hdot
    obtain ⟨x, hx, hxd⟩ := h3 n (Nat.zero_le _) hn
    rw [List.getElem?_eq_getElem hn, hsn] at hx
    exact hxd (Option.some.inj hx).symm
  · rintro ⟨hne, hdot⟩
    have hpos : 0 < s.length := List.length_pos.2 hne
    refine ⟨0, s.length, Nat.zero_le _, 0, by simp, s.length, ?_, by simp⟩
    refine (mem_plusEnds_notDot s (s.length + 1) 0 s.length).2
      ⟨hpos, by omega, fun k _ hk => ⟨s[k], List.getElem?_eq_getElem hk, fun e => ?_⟩⟩
    exact hdot (e ▸ List.getElem_mem hk)


/-! ## Lemmas: path decomposition -/

theorem rdropWhile_append_rtakeWhile (p : Char → Bool) (l : Str) :
    l.rdropWhile p ++ l.rtakeWhile p = l := by
  simp only [List.rdropWhile, List.rtakeWhile, ← List.reverse_append,
    List.takeWhile_append_dropWhile, List.reverse_reverse]

/-- A path is its directory part, separator included, followed by its file name. -/
theorem dir_append_filename (p : Str) : (p.rdropWhile fun c => c != '/') ++ filename p = p :=
  rdropWhile_append_rtakeWhile _ p

theorem slash_not_mem_filename (p : Str) : '/' ∉ filename p := by
  intro h
  have := List.mem_rtakeWhile_imp h
  simp at this

theorem stem_prefix_filename (p : Str) : stem p <+: filename p :=
  List.take_prefix _ _

theorem slash_not_mem_stem (p : Str) : '/' ∉ stem p :=
  fun h => slash_not_mem_filename p ((stem_prefix_filename p).subset h)

theorem extension_length_lt (p : Str) (h : filename p ≠ []) :
    (extension p).length < (filename p).length := by
  have hsplit := rdropWhile_append_rtakeWhile (fun c => c != '.') (filename p)
  have hlen := congrArg List.length hsplit
  rw [List.length_append] at hlen
  have hpos : 0 < (filename p).length := List.length_pos.2 h
  unfold extension
  simp only
  split
  · simpa using hpos
  · split
    · simpa using hpos
    · rw [List.length_cons]
      omega

theorem stem_ne_nil (p : Str) (h : filename p ≠ []) : stem p ≠ [] := by
  have hlt := extension_length_lt p h
  intro hs
  have := congrArg List.length hs
  rw [stem] at this
  simp only [List.length_take, List.length_nil] at this
  omega

/-! ## Lemmas: the table and the scan -/

theorem rules_pattern_nonempty_name :
    ∀ r ∈ rules, regex_search [] r.extensionPattern = false := by
  decide

theorem rules_folder_no_trailing_slash : ∀ r ∈ rules, r.folder.getLast? ≠ some '/' := by
  decide

theorem rules_type_no_comma : ∀ r ∈ rules, r.type ≠ [] ∧ ',' ∉ r.type := by
  decide

theorem techsets_patterns_disjoint (s : Str)
    (h1 : regex_search s (dotExt "cbi" ["cbt"]) = true)
    (h2 : regex_search s (dotExt "hlsl_h2" ["cso"]) = true) : False := by
  obtain ⟨u, hu, hus⟩ := (regex_search_dotExt s _ _).1 h1
  obtain ⟨v, hv, hvs⟩ := (regex_search_dotExt s _ _).1 h2
  have key : ∀ u ∈ ["cbi".toList, "cbt".toList], ∀ v ∈ ["hlsl_h2".toList, "cso".toList],
      ¬ (lower ('.' :: u) <:+ lower ('.' :: v)) ∧ ¬ (lower ('.' :: v) <:+ lower ('.' :: u)) := by
    decide
  rcases List.suffix_or_suffix_of_suffix hus hvs with h | h
  · exact (key u hu v hv).1 h
  · exact (key u hu v hv).2 h

/-- Two rules of the table whose folder prefixes are comparable are the same rule, or
the `techsets` rule together with one of its two sub-folder rules. -/
theorem rules_prefix_cases :
    ∀ r1 ∈ rules, ∀ r2 ∈ rules, (r1.folder ++ ['/']).isPrefixOf (r2.folder ++ ['/']) = true →
      r1 = r2 ∨ (r1.extensionPattern = dotExt "cbi" ["cbt"] ∧
        r2.extensionPattern = dotExt "hlsl_h2" ["cso"]) := by
  decide

theorem starts_with_iff (s pfx : Str) : starts_with s pfx = true ↔ pfx <+: s :=
  List.isPrefixOf_iff_prefix

/-- At most one rule of the table matches a given relative path. -/
theorem rule_match_unique (rel : Str) (r1 r2 : Rule) (h1 : r1 ∈ rules) (h2 : r2 ∈ rules)
    (m1 : ruleMatches r1 rel = true) (m2 : ruleMatches r2 rel = true) : r1 = r2 := by
  simp only [ruleMatches, Bool.and_eq_true, starts_with_iff] at m1 m2
  rcases List.prefix_or_prefix_of_prefix m1.1 m2.1 with h | h
  · rcases rules_prefix_cases r1 h1 r2 h2 (List.isPrefixOf_iff_prefix.2 h) with e | ⟨e1, e2⟩
    · exact e
    · exact (techsets_patterns_disjoint _ (e1 ▸ m1.2) (e2 ▸ m2.2)).elim
  · rcases rules_prefix_cases r2 h2 r1 h1 (List.isPrefixOf_iff_prefix.2 h) with e | ⟨e1, e2⟩
    · exact e.symm
    · exact (techsets_patterns_disjoint _ (e1 ▸ m2.2) (e2 ▸ m1.2)).elim

theorem scan_eq_none (table : List Rule) (rel : Str)
    (h : ∀ r ∈ table, ruleMatches r rel = false) : scan table rel = none := by
  induction table with
  | nil => rfl
  | cons r rest ih =>
    rw [scan, h r (List.mem_cons_self _ _)]
    exact ih fun q hq => h q (List.mem_cons_of_mem _ hq)

theorem scan_eq_some_of_unique (table : List Rule) (rel : Str) (rule : Rule)
    (hmem : rule ∈ table) (hm : ruleMatches rule rel = true)
    (huniq : ∀ r ∈ table, ruleMatches r rel = true → r = rule) :
    scan table rel = some (ruleLine rule rel) := by
  induction table with
  | nil => cases hmem
  | cons r rest ih =>
    rw [scan]
    by_cases hr : ruleMatches r rel = true
    · rw [if_pos hr, huniq r (List.mem_cons_self _ _) hr]
    · rw [if_neg hr]
      rcases List.mem_cons.1 hmem with e | hmem
      · exact absurd (e ▸ hm) hr
      · exact ih hmem fun q hq => huniq q (List.mem_cons_of_mem _ hq)

theorem scan_eq_some_elim (table : List Rule) (rel line : Str)
    (h : scan table rel = some line) :
    ∃ r ∈ table, ruleMatches r rel = true ∧ line = ruleLine r rel := by
  induction table with
  | nil => cases h
  | cons r rest ih =>
    rw [scan] at h
    by_cases hr : ruleMatches r rel = true
    · rw [if_pos hr] at h
      exact ⟨r, List.mem_cons_self _ _, hr, (Option.some.inj h).symm⟩
    · rw [if_neg hr] at h
      obtain ⟨q, hq, hqm, hl⟩ := ih h
      exact ⟨q, List.mem_cons_of_mem _ hq, hqm, hl⟩

/-- The scan of the table stops at the rule that matches. -/
theorem scan_rules_of_match (rel : Str) (rule : Rule) (hmem : rule ∈ rules)
    (hm : ruleMatches rule rel = true) : scan rules rel = some (ruleLine rule rel) :=
  scan_eq_some_of_unique rules rel rule hmem hm
    fun r hr hrm => rule_match_unique rel r rule hr hmem hrm hm

theorem classify_of_match (mapCsvMode : Bool) (rel : Str) (rule : Rule) (hmem : rule ∈ rules)
    (hdepth : depthOf rel ≥ 1) (hov : mapOverride mapCsvMode rel = false)
    (hm : ruleMatches rule rel = true) :
    classify_and_format mapCsvMode rel = ruleLine rule rel := by
  have hd : ¬ depthOf rel = 0 := by omega
  simp only [classify_and_format, classify_with, hov, if_neg hd, scan_rules_of_match rel rule hmem hm]
  simp

theorem typePart_line (t p : Str) (h : ',' ∉ t) : typePart (t ++ [','] ++ p) = t := by
  rw [typePart, List.append_assoc, List.takeWhile_append_of_pos]
  · simp
  · intro a ha
    have : a ≠ ',' := fun e => h (e ▸ ha)
    simpa using this

theorem typePart_ruleLine (rule : Rule) (rel : Str) (h : ',' ∉ rule.type) :
    typePart (ruleLine rule rel) = rule.type := by
  simp only [ruleLine]
  exact typePart_line _ _ h

/-- The last element of what `rdropWhile (· != c)` keeps is `c`. -/
theorem rdropWhile_ne_eq_concat (l : Str) (c : Char)
    (h : (l.rdropWhile fun x => x != c) ≠ []) :
    (l.rdropWhile fun x => x != c) = (l.rdropWhile fun x => x != c).dropLast ++ [c] := by
  have hlast := List.rdropWhile_last_not (fun x => x != c) l h
  have hc : (l.rdropWhile fun x => x != c).getLast h = c := by simpa using hlast
  conv_lhs => rw [← List.dropLast_append_getLast h, hc]

theorem extension_suffix_filename (p : Str) : extension p <:+ filename p := by
  unfold extension
  simp only
  split
  · exact List.nil_suffix
  · split
    · exact List.nil_suffix
    · rename_i hlen
      have hne : ((filename p).rdropWhile fun x => x != '.') ≠ [] := by
        intro e; rw [e] at hlen; simp at hlen
      have hsplit := rdropWhile_append_rtakeWhile (fun c => c != '.') (filename p)
      rw [rdropWhile_ne_eq_concat _ _ hne, List.append_assoc] at hsplit
      exact ⟨_, hsplit⟩

/-- A rule prefix that starts `rel` also starts, strictly, the path made of the parent
directory and the stem of `rel`. -/
theorem folder_prefix_of_full_path (rel folder : Str)
    (hnt : folder.getLast? ≠ some '/') (hpfx : folder ++ ['/'] <+: rel)
    (hf : filename rel ≠ []) :
    folder ++ ['/'] <+: parent_path rel ++ ['/'] ++ stem rel ∧
      (folder ++ ['/']).length < (parent_path rel ++ ['/'] ++ stem rel).length := by
  have hstem : 0 < (stem rel).length := List.length_pos.2 (stem_ne_nil rel hf)
  -- the prefix lies within the directory part of `rel`
  have hD : folder ++ ['/'] <+: rel.rdropWhile fun c => c != '/' := by
    obtain ⟨t, ht⟩ := hpfx
    rw [← dir_append_filename rel] at ht
    rcases List.append_eq_append_iff.1 ht with ⟨a, ha, _⟩ | ⟨c, hc, hF⟩
    · exact ⟨a, ha.symm⟩
    · rcases List.eq_nil_or_concat c with rfl | ⟨c0, x, rfl⟩
      · rw [List.append_nil] at hc
        exact hc ▸ List.prefix_refl _
      · have hx : ['/'] = [x] := by
          rw [List.concat_eq_append, ← List.append_assoc] at hc
          exact List.append_inj_right' hc rfl
        have hmem : x ∈ filename rel := by rw [hF]; simp
        rw [← List.singleton_inj.1 hx] at hmem
        exact (slash_not_mem_filename rel hmem).elim
  -- the directory part is the parent path followed by separators
  have hDne : (rel.rdropWhile fun c => c != '/') ≠ [] := by
    intro e; rw [e] at hD; simpa using hD.length_le
  have hsplit := rdropWhile_append_rtakeWhile (fun c => c == '/')
    (rel.rdropWhile fun c => c != '/')
  have hS : ∀ c ∈ (rel.rdropWhile fun c => c != '/').rtakeWhile fun c => c == '/', c = '/' := by
    intro c hc
    simpa using List.mem_rtakeWhile_imp hc
  have key : ∃ a, parent_path rel ++ ['/'] = folder ++ ['/'] ++ a := by
    obtain ⟨t, ht⟩ := hD
    rw [← hsplit, List.append_assoc] at ht
    rcases List.append_eq_append_iff.1 ht with ⟨a, ha, hb⟩ | ⟨c, hc, hd⟩
    · cases a with
      | nil => exact ⟨[], by rw [parent_path, ha]; simp⟩
      | cons x a =>
        have hx : x = '/' := by
          have := List.head_eq_of_cons_eq hb
          simpa using this.symm
        subst hx
        exact ⟨a ++ ['/'], by rw [parent_path, ha]; simp⟩
    · rcases List.eq_nil_or_concat c with rfl | ⟨c0, x, rfl⟩
      · exact ⟨[], by rw [parent_path, hc]; simp⟩
      · have hx : x = '/' := hS x (by rw [hd]; simp)
        exact absurd (by rw [hc, hx]; simp) hnt
  obtain ⟨a, ha⟩ := key
  constructor
  · exact ⟨a ++ stem rel, by rw [ha]; simp⟩
  · have := congrArg List.length ha
    simp only [List.length_append, List.length_singleton, List.length_cons,
      List.length_nil] at this ⊢
    omega

theorem ruleMatches_filename_ne_nil (rule : Rule) (hmem : rule ∈ rules) (rel : Str)
    (hm : ruleMatches rule rel = true) : filename rel ≠ [] := by
  intro e
  simp only [ruleMatches, Bool.and_eq_true] at hm
  rw [e, rules_pattern_nonempty_name rule hmem] at hm
  exact absurd hm.2 (by decide)

theorem rawfile_comma : "rawfile,".toList = "rawfile".toList ++ [','] := by
  decide

theorem rootType_eq (ext : Str) :
    rootType ext =
      if ext = "csv".toList then "stringtable".toList
      else if ext = "gscbin".toList then "scriptfile".toList
      else "rawfile".toList := by
  unfold rootType
  simp only [beq_iff_eq, Bool.or_eq_true]
  by_cases h1 : ext = "csv".toList
  · rw [if_pos h1, if_pos h1]
  · by_cases h2 : ext = "gscbin".toList
    · subst h2
      decide
    · rw [if_neg h1, if_neg h1, if_neg h2]
      split <;> rfl

theorem mapOverride_of_depth_zero (mapCsvMode : Bool) (rel : Str) (h : depthOf rel = 0) :
    mapOverride mapCsvMode rel = false := by
  simp [mapOverride, h]

theorem typeTokens_wellformed : ∀ t ∈ typeTokens, t ≠ [] ∧ ',' ∉ t := by
  decide

/-- Every line the classifier builds, over any table, is a type token of the classifier
or of the table, a comma, and a path. -/
theorem classify_with_shape (table : List Rule) (mapCsvMode : Bool) (rel : Str) :
    ∃ t p, classify_with table mapCsvMode rel = t ++ [','] ++ p ∧
      t ∈ ["stringtable".toList, "scriptfile".toList, "rawfile".toList]
        ++ table.map Rule.type := by
  unfold classify_with
  split
  · exact ⟨"rawfile".toList, rel, by rw [rawfile_comma], by simp⟩
  · split
    · refine ⟨rootType (extOf rel), stem rel, rfl, ?_⟩
      rw [rootType_eq]
      split
      · simp
      · split <;> simp
    · cases h : scan table rel with
      | none => exact ⟨"rawfile".toList, noExt rel, by rw [fallbackLine, rawfile_comma], by simp⟩
      | some line =>
        obtain ⟨r, hr, _, hl⟩ := scan_eq_some_elim table rel line h
        refine ⟨r.type, _, by rw [hl]; rfl, ?_⟩
        exact List.mem_append_right _ (List.mem_map_of_mem _ hr)

theorem rdropWhile_append_of_all (p : Char → Bool) (l t : Str) (h : ∀ x ∈ t, p x = true) :
    (l ++ t).rdropWhile p = l.rdropWhile p := by
  induction t using List.reverseRecOn with
  | nil => simp
  | append_singleton t x ih =>
    rw [← List.append_assoc, List.rdropWhile_concat_pos _ _ _ (h x (by simp))]
    exact ih fun y hy => h y (by simp [hy])

/-- When the file name has an extension, the fallback cut falls inside the file name:
`noExt` is the directory part of `rel` followed by the stem. -/
theorem noExt_of_extension (rel : Str) (hext : extension rel ≠ []) :
    noExt rel = (rel.rdropWhile fun c => c != '/') ++ stem rel := by
  have hsplit := rdropWhile_append_rtakeWhile (fun c => c != '.') (filename rel)
  have hT : ∀ x ∈ (filename rel).rtakeWhile (fun c => c != '.'), (x != '.') = true :=
    fun x hx => by have h := List.mem_rtakeWhile_imp hx; exact h
  have hR : ((filename rel).rdropWhile fun c => c != '.') ≠ [] ∧
      extension rel = '.' :: (filename rel).rtakeWhile fun c => c != '.' := by
    unfold extension at hext ⊢
    simp only at hext ⊢
    split
    · rename_i h; rw [if_pos h] at hext; exact absurd rfl hext
    · rename_i h
      rw [if_neg h] at hext
      split
      · rename_i h2; rw [if_pos h2] at hext; exact absurd rfl hext
      · rename_i h2
        refine ⟨fun e => h2 ?_, rfl⟩
        rw [e]; simp
  obtain ⟨hRne, hE⟩ := hR
  have hRc := rdropWhile_ne_eq_concat (filename rel) '.' hRne
  have hF : filename rel = ((filename rel).rdropWhile fun c => c != '.').dropLast ++
      ('.' :: (filename rel).rtakeWhile fun c => c != '.') := by
    have h := hsplit
    rw [hRc, List.append_assoc] at h
    exact h.symm
  have hstem : stem rel = ((filename rel).rdropWhile fun c => c != '.').dropLast := by
    have hlen : (((filename rel).rdropWhile fun c => c != '.').dropLast).length
        = (filename rel).length - (extension rel).length := by
      have h1 := congrArg List.length hF
      rw [List.length_append, List.length_cons] at h1
      rw [hE, List.length_cons]
      omega
    have h := @List.take_left' Char _ ('.' :: (filename rel).rtakeWhile fun c => c != '.') _ hlen
    rw [← hF] at h
    exact h
  have hrel : rel = ((rel.rdropWhile fun c => c != '/') ++
      ((filename rel).rdropWhile fun c => c != '.').dropLast ++ ['.']) ++
      (filename rel).rtakeWhile fun c => c != '.' := by
    have h := (dir_append_filename rel).symm.trans
      (congrArg (fun t => (rel.rdropWhile fun c => c != '/') ++ t) hF)
    simpa using h
  have hdot : rel.contains '.' = true := by
    rw [hrel]; simp
  have hcut : (rel.rdropWhile fun c => c != '.') = (rel.rdropWhile fun c => c != '/') ++
      ((filename rel).rdropWhile fun c => c != '.').dropLast ++ ['.'] := by
    conv_lhs => rw [hrel, rdropWhile_append_of_all _ _ _ hT]
    exact List.rdropWhile_concat_neg _ _ _ (by simp)
  rw [noExt, if_pos hdot, hcut, hstem]
  simp

/-- Where the fallback does what is expected of it: no rule matches, the map-mode
override does not apply, and the file name has an extension. -/
theorem classify_fallback_of_extension (mapCsvMode : Bool) (rel : Str)
    (hdepth : depthOf rel ≥ 1) (hov : mapOverride mapCsvMode rel = false)
    (hnone : ∀ r ∈ rules, ruleMatches r rel = false) (hext : extension rel ≠ []) :
    classify_and_format mapCsvMode rel =
      "rawfile,".toList ++ ((rel.rdropWhile fun c => c != '/') ++ stem rel) := by
  have hd : ¬ depthOf rel = 0 := by omega
  simp only [classify_and_format, classify_with, hov, if_neg hd, scan_eq_none rules rel hnone,
    fallbackLine, noExt_of_extension rel hext]
  simp

/-! ## The claims -/

/-- C1: for a file at depth at least 1 to which the map-mode override does not apply, and
a rule of the table whose folder prefix `folder + "/"` starts `rel` and whose extension
pattern matches the base name, the text before the first comma of the result of
`classify_and_format` is that rule's type. -/
theorem C1_matched_rule_gives_type (mapCsvMode : Bool) (rel : Str) (rule : Rule)
    (hrule : rule ∈ rules) (hdepth : depthOf rel ≥ 1)
    (hov : mapOverride mapCsvMode rel = false)
    (hpfx : starts_with rel (rule.folder ++ ['/']) = true)
    (hext : regex_search (filename rel) rule.extensionPattern = true) :
    typePart (classify_and_format mapCsvMode rel) = rule.type := by
  have hm : ruleMatches rule rel = true := by simp [ruleMatches, hpfx, hext]
  rw [classify_of_match mapCsvMode rel rule hrule hdepth hov hm]
  exact typePart_ruleLine rule rel (rules_type_no_comma rule hrule).2

/-- C1, witness: `techsets/ps/foo.cso` has type `pixelshader` and `techsets/vs/foo.cso`
has type `vertexshader`. -/
theorem C1_matched_rule_gives_type_witness :
    typePart (classify_and_format false "techsets/ps/foo.cso".toList) = "pixelshader".toList ∧
    typePart (classify_and_format false "techsets/vs/foo.cso".toList)
      = "vertexshader".toList :=
  ⟨C1_matched_rule_gives_type false "techsets/ps/foo.cso".toList
      (Rule.row "techsets/ps" (dotExt "hlsl_h2" ["cso"]) "pixelshader" false)
      (by decide) (by decide) (by decide) (by decide) (by decide),
   C1_matched_rule_gives_type false "techsets/vs/foo.cso".toList
      (Rule.row "techsets/vs" (dotExt "hlsl_h2" ["cso"]) "vertexshader" false)
      (by decide) (by decide) (by decide) (by decide) (by decide)⟩

/-- C2: for a file nested at depth at least 2 and matched by a rule of the table (the
map-mode override not applying), the path made of the parent directory, `/` and the
stem starts with `folder + "/"`, and `classify_and_format` returns the rule's type, a
comma, and that path with the leading `folder + "/"` removed. -/
theorem C2_nested_path_strips_folder (mapCsvMode : Bool) (rel : Str) (rule : Rule)
    (hrule : rule ∈ rules) (hdepth : depthOf rel ≥ 2)
    (hov : mapOverride mapCsvMode rel = false)
    (hm : ruleMatches rule rel = true) :
    rule.folder ++ ['/'] <+: parent_path rel ++ ['/'] ++ stem rel ∧
    classify_and_format mapCsvMode rel =
      rule.type ++ [','] ++
        (parent_path rel ++ ['/'] ++ stem rel).drop (rule.folder ++ ['/']).length := by
  have hpfx : rule.folder ++ ['/'] <+: rel := by
    simp only [ruleMatches, Bool.and_eq_true, starts_with_iff] at hm
    exact hm.1
  obtain ⟨h1, h2⟩ := folder_prefix_of_full_path rel rule.folder
    (rules_folder_no_trailing_slash rule hrule) hpfx
    (ruleMatches_filename_ne_nil rule hrule rel hm)
  refine ⟨h1, ?_⟩
  rw [classify_of_match mapCsvMode rel rule hrule (by omega) hov hm]
  simp only [ruleLine, hdepth, decide_True, Bool.or_true, if_true,
    (starts_with_iff _ _).2 h1, Bool.true_and, gt_iff_lt, h2]

/-- C2, witness: `materials/sub/bar.json` gives `material,sub/bar`, which is not
`material,materials/sub/bar`. -/
theorem C2_nested_path_strips_folder_witness :
    classify_and_format false "materials/sub/bar.json".toList = "material,sub/bar".toList ∧
    classify_and_format false "materials/sub/bar.json".toList
      ≠ "material,materials/sub/bar".toList := by
  have h := (C2_nested_path_strips_folder false "materials/sub/bar.json".toList
    (Rule.row "materials" (dotExt "json" []) "material" false)
    (by decide) (by decide) (by decide) (by decide)).2
  have e : classify_and_format false "materials/sub/bar.json".toList
      = "material,sub/bar".toList := h.trans (by decide)
  exact ⟨e, by rw [e]; decide⟩

/-- C3: for a file exactly one level below the base directory, matched by a rule of the
table whose `forceFullPath` is false (the map-mode override not applying),
`classify_and_format` returns the rule's type, a comma and the stem. -/
theorem C3_depth_one_gives_stem (mapCsvMode : Bool) (rel : Str) (rule : Rule)
    (hrule : rule ∈ rules) (hdepth : depthOf rel = 1) (hforce : rule.forceFullPath = false)
    (hov : mapOverride mapCsvMode rel = false)
    (hm : ruleMatches rule rel = true) :
    classify_and_format mapCsvMode rel = rule.type ++ [','] ++ stem rel := by
  rw [classify_of_match mapCsvMode rel rule hrule (by omega) hov hm]
  have hno : starts_with (stem rel) (rule.folder ++ ['/']) = false := by
    rw [Bool.eq_false_iff]
    intro h
    exact slash_not_mem_stem rel (((starts_with_iff _ _).1 h).subset (by simp))
  have hd : ¬ depthOf rel ≥ 2 := by omega
  simp [ruleLine, hforce, hd, hno]

/-- C3, witness: the files the specification lists, each one level below the base
directory, with the folder name and the extension discarded. -/
theorem C3_depth_one_gives_stem_witness :
    classify_and_format false "xsurface/a.xsb".toList = "xmodelsurfs,a".toList ∧
    classify_and_format false "techsets/a.cbi".toList = "material,a".toList ∧
    classify_and_format false "techsets/a.cbt".toList = "material,a".toList ∧
    classify_and_format false "loaded_sound/a.flac".toList = "loaded_sound,a".toList ∧
    classify_and_format false "loaded_sound/a.wav".toList = "loaded_sound,a".toList ∧
    classify_and_format false "loaded_sound/a.mp3".toList = "loaded_sound,a".toList ∧
    classify_and_format false "materials/materials.json".toList
      = "material,materials".toList :=
  ⟨(C3_depth_one_gives_stem false "xsurface/a.xsb".toList
      (Rule.row "xsurface" (dotExt "xsb" []) "xmodelsurfs" false)
      (by decide) (by decide) rfl (by decide) (by decide)).trans (by decide),
   (C3_depth_one_gives_stem false "techsets/a.cbi".toList
      (Rule.row "techsets" (dotExt "cbi" ["cbt"]) "material" false)
      (by decide) (by decide) rfl (by decide) (by decide)).trans (by decide),
   (C3_depth_one_gives_stem false "techsets/a.cbt".toList
      (Rule.row "techsets" (dotExt "cbi" ["cbt"]) "material" false)
      (by decide) (by decide) rfl (by decide) (by decide)).trans (by decide),
   (C3_depth_one_gives_stem false "loaded_sound/a.flac".toList
      (Rule.row "loaded_sound" (dotExt "flac" ["wav", "mp3"]) "loaded_sound" false)
      (by decide) (by decide) rfl (by decide) (by decide)).trans (by decide),
   (C3_depth_one_gives_stem false "loaded_sound/a.wav".toList
      (Rule.row "loaded_sound" (dotExt "flac" ["wav", "mp3"]) "loaded_sound" false)
      (by decide) (by decide) rfl (by decide) (by decide)).trans (by decide),
   (C3_depth_one_gives_stem false "loaded_sound/a.mp3".toList
      (Rule.row "loaded_sound" (dotExt "flac" ["wav", "mp3"]) "loaded_sound" false)
      (by decide) (by decide) rfl (by decide) (by decide)).trans (by decide),
   (C3_depth_one_gives_stem false "materials/materials.json".toList
      (Rule.row "materials" (dotExt "json" []) "material" false)
      (by decide) (by decide) rfl (by decide) (by decide)).trans (by decide)⟩

/-- C4: for a file lying directly under the base directory (`rel` has no `/`), in either
mode and over any rule table, the classifier returns `T`, a comma and the stem, where `T`
is `stringtable` for the lower-cased extension `csv`, `scriptfile` for `gscbin` and
`rawfile` for every other extension; so `classify_and_format` does not consult the table. -/
theorem C4_root_file_by_extension (table : List Rule) (mapCsvMode : Bool) (rel : Str)
    (hroot : '/' ∉ rel) :
    classify_and_format mapCsvMode rel =
      (if extOf rel = "csv".toList then "stringtable".toList
       else if extOf rel = "gscbin".toList then "scriptfile".toList
       else "rawfile".toList) ++ [','] ++ stem rel ∧
    classify_with table mapCsvMode rel = classify_and_format mapCsvMode rel := by
  have hd : depthOf rel = 0 := List.count_eq_zero.2 hroot
  have key : ∀ tb : List Rule, classify_with tb mapCsvMode rel =
      rootType (extOf rel) ++ [','] ++ stem rel := by
    intro tb
    simp [classify_with, mapOverride_of_depth_zero mapCsvMode rel hd, hd]
  constructor
  · rw [classify_and_format, key, rootType_eq]
  · rw [classify_and_format, key, key]

/-- C4, witness: root files with the extensions `csv`, `gscbin`, `gsc`, `lua`, another
extension and no extension, in one mode or the other. -/
theorem C4_root_file_by_extension_witness :
    classify_and_format false "strings.CSV".toList = "stringtable,strings".toList ∧
    classify_and_format true "main.gscbin".toList = "scriptfile,main".toList ∧
    classify_and_format true "main.gsc".toList = "rawfile,main".toList ∧
    classify_and_format false "menu.lua".toList = "rawfile,menu".toList ∧
    classify_and_format false "notes.txt".toList = "rawfile,notes".toList ∧
    classify_and_format true "readme".toList = "rawfile,readme".toList ∧
    classify_with [] true "readme".toList = classify_and_format true "readme".toList :=
  ⟨(C4_root_file_by_extension [] false "strings.CSV".toList (by decide)).1.trans (by decide),
   (C4_root_file_by_extension [] true "main.gscbin".toList (by decide)).1.trans (by decide),
   (C4_root_file_by_extension [] true "main.gsc".toList (by decide)).1.trans (by decide),
   (C4_root_file_by_extension [] false "menu.lua".toList (by decide)).1.trans (by decide),
   (C4_root_file_by_extension [] false "notes.txt".toList (by decide)).1.trans (by decide),
   (C4_root_file_by_extension [] true "readme".toList (by decide)).1.trans (by decide),
   (C4_root_file_by_extension [] true "readme".toList (by decide)).2⟩

/-- C5: in map mode, for a file at depth at least 1 whose `rel` starts with `maps/` and
whose lower-cased extension is `gsc`, `classify_and_format` returns `rawfile,` followed
by `rel` unchanged, although the rule of the table for folder `maps`, of type
`scriptfile`, matches the file. -/
theorem C5_map_mode_override (rel : Str) (hdepth : depthOf rel ≥ 1)
    (hmaps : starts_with rel "maps/".toList = true) (hext : extOf rel = "gsc".toList) :
    classify_and_format true rel = "rawfile,".toList ++ rel ∧
    ∃ rule ∈ rules, rule.folder = "maps".toList ∧ rule.type = "scriptfile".toList ∧
      ruleMatches rule rel = true := by
  constructor
  · have hov : mapOverride true rel = true := by
      rw [mapOverride, hmaps, hext, decide_eq_true hdepth]
      decide
    simp [classify_and_format, classify_with, hov]
  · refine ⟨Rule.row "maps" (dotExt "gsc" ["gscbin"]) "scriptfile" false, by decide, rfl, rfl, ?_⟩
    have hpat : regex_search (filename rel) (dotExt "gsc" ["gscbin"]) = true := by
      rw [regex_search_dotExt]
      refine ⟨"gsc".toList, by simp, ?_⟩
      have hsuf := extension_suffix_filename rel
      cases hx : extension rel with
      | nil =>
        rw [extOf, hx] at hext
        exact absurd hext (by decide)
      | cons c e =>
        have hc : c = '.' := by
          have : extension rel ≠ [] := by rw [hx]; simp
          unfold extension at hx
          simp only at hx
          split at hx
          · cases hx
          · split at hx
            · cases hx
            · exact (List.cons.inj hx).1.symm
        subst hc
        rw [hx] at hsuf
        have he : lower e = "gsc".toList := by
          rw [extOf, hx] at hext
          simpa using hext
        have hl : lower ('.' :: "gsc".toList) = lower ('.' :: e) := by
          show tolower '.' :: lower "gsc".toList = tolower '.' :: lower e
          rw [he]
          decide
        rw [hl]
        exact hsuf.map tolower
    simp only [ruleMatches, Bool.and_eq_true]
    exact ⟨hmaps, hpat⟩

/-- C5, witness: `maps/mp/mp_test.GSC` in map mode keeps its path and its extension as
they are. -/
theorem C5_map_mode_override_witness :
    classify_and_format true "maps/mp/mp_test.GSC".toList
      = "rawfile,maps/mp/mp_test.GSC".toList :=
  (C5_map_mode_override "maps/mp/mp_test.GSC".toList (by decide) (by decide) (by decide)).1

/-- C6: the fallback does not keep the directory part of `rel`: for `unknown.dir/foo`,
a file without extension at depth 1 that no rule matches and the map-mode override does
not concern, `classify_and_format` cuts `rel` at the period of the directory name and
returns `rawfile,unknown` in both modes, where the claim gives `rawfile,unknown.dir/foo`. -/
theorem C6_fallback_cuts_at_last_period_of_rel :
    depthOf "unknown.dir/foo".toList = 1 ∧
    scan rules "unknown.dir/foo".toList = none ∧
    mapOverride true "unknown.dir/foo".toList = false ∧
    mapOverride false "unknown.dir/foo".toList = false ∧
    extension "unknown.dir/foo".toList = [] ∧
    classify_and_format false "unknown.dir/foo".toList = "rawfile,unknown".toList ∧
    classify_and_format true "unknown.dir/foo".toList = "rawfile,unknown".toList ∧
    classify_and_format false "unknown.dir/foo".toList ≠ "rawfile,unknown.dir/foo".toList := by
  decide

/-- C7, as stated, fails: in the table the rules for `techsets/ps` and `techsets/vs` do
not come before the rule for `techsets`. -/
theorem C7_subfolders_not_before_techsets :
    ¬ (folderIndex "techsets/ps" < folderIndex "techsets" ∧
       folderIndex "techsets/vs" < folderIndex "techsets") := by
  decide

/-- C7, amended: the rule for `techsets` comes before the rules for `techsets/ps` and
`techsets/vs`; a file that one of the two sub-folder rules matches is not matched by the
`techsets` rule, so the scan still stops at the sub-folder rule. -/
theorem C7_techsets_before_subfolders (rel : Str) (rule : Rule) (hrule : rule ∈ rules)
    (hsub : rule.folder = "techsets/ps".toList ∨ rule.folder = "techsets/vs".toList)
    (hm : ruleMatches rule rel = true) :
    folderIndex "techsets" < folderIndex "techsets/ps" ∧
    folderIndex "techsets" < folderIndex "techsets/vs" ∧
    (∀ r ∈ rules, r.folder = "techsets".toList → ruleMatches r rel = false) ∧
    scan rules rel = some (ruleLine rule rel) := by
  refine ⟨by decide, by decide, ?_, scan_rules_of_match rel rule hrule hm⟩
  intro r hr hfolder
  by_contra hrm
  have e : r = rule := rule_match_unique rel r rule hr hrule (by simpa using hrm) hm
  rw [e] at hfolder
  rcases hsub with h | h <;> rw [h] at hfolder <;> exact absurd hfolder (by decide)

/-- C7, witness: `techsets/ps/foo.cso` is passed over by the `techsets` rule and taken
by the `techsets/ps` rule. -/
theorem C7_techsets_before_subfolders_witness :
    scan rules "techsets/ps/foo.cso".toList = some "pixelshader,foo".toList :=
  (C7_techsets_before_subfolders "techsets/ps/foo.cso".toList
    (Rule.row "techsets/ps" (dotExt "hlsl_h2" ["cso"]) "pixelshader" false)
    (by decide) (Or.inl rfl) (by decide)).2.2.2.trans (by decide)

/-- C8: `is_valid_map_file` is true exactly when the lower-cased extension is one of
`.gsc`, `.fxe`, `.xmb`, `.xsb`, or it is `.json` and the name of the immediate parent
folder is `sounds`, letter case included; so it is true for `sounds/anything.json` and
false for `other/anything.json` and `Sounds/anything.json`. -/
theorem C8_is_valid_map_file_iff :
    (∀ path : Str, is_valid_map_file path = true ↔
      (lower (extension path) ∈
          [".gsc".toList, ".fxe".toList, ".xmb".toList, ".xsb".toList] ∨
        (lower (extension path) = ".json".toList ∧
          filename (parent_path path) = "sounds".toList))) ∧
    is_valid_map_file "sounds/anything.json".toList = true ∧
    is_valid_map_file "mp_test/sounds/anything.JSON".toList = true ∧
    is_valid_map_file "other/anything.json".toList = false ∧
    is_valid_map_file "Sounds/anything.json".toList = false ∧
    is_valid_map_file "other/anything.GSC".toList = true := by
  refine ⟨fun path => ?_, by decide, by decide, by decide, by decide, by decide⟩
  unfold is_valid_map_file
  simp only [Bool.or_eq_true, Bool.and_eq_true, beq_iff_eq, List.mem_cons,
    List.mem_singleton, List.not_mem_nil, or_false]
  split
  · rename_i h
    exact ⟨fun _ => Or.inl (by tauto), fun _ => rfl⟩
  · rename_i h
    split
    · rename_i h2
      exact ⟨fun _ => Or.inr h2, fun _ => rfl⟩
    · rename_i h2
      constructor
      · intro hf; cases hf
      · rintro (h3 | h3)
        · exact absurd (by tauto) h
        · exact absurd h3 h2

/-- C9: for every path and either mode, the line `classify_and_format` returns contains
a comma; the text before its first comma is non-empty, comma-free and one of
`stringtable`, `scriptfile`, `rawfile` or a `type` of the table; the line is that text, a
comma and a path; and the tally of `main` reads that text as the type. -/
theorem C9_line_has_type_and_comma (mapCsvMode : Bool) (rel : Str) :
    ',' ∈ classify_and_format mapCsvMode rel ∧
    typePart (classify_and_format mapCsvMode rel) ∈ typeTokens ∧
    typePart (classify_and_format mapCsvMode rel) ≠ [] ∧
    ',' ∉ typePart (classify_and_format mapCsvMode rel) ∧
    (∃ path, classify_and_format mapCsvMode rel =
      typePart (classify_and_format mapCsvMode rel) ++ [','] ++ path) ∧
    tallyType (classify_and_format mapCsvMode rel)
      = typePart (classify_and_format mapCsvMode rel) := by
  obtain ⟨t, p, hline, ht⟩ := classify_with_shape rules mapCsvMode rel
  have htok : t ∈ typeTokens := ht
  obtain ⟨hne, hcomma⟩ := typeTokens_wellformed t htok
  have hmem : ',' ∈ classify_and_format mapCsvMode rel := by
    rw [classify_and_format, hline]; simp
  have htp : typePart (classify_and_format mapCsvMode rel) = t := by
    rw [classify_and_format, hline]
    exact typePart_line t p hcomma
  refine ⟨hmem, htp ▸ htok, htp ▸ hne, htp ▸ hcomma, ⟨p, ?_⟩, ?_⟩
  · rw [htp]; exact hline
  · have hc : (classify_and_format mapCsvMode rel).contains ',' = true := by
      simpa using hmem
    rw [tallyType, if_pos hc, typePart]

/-- C10: `should_skip_file` is true exactly when the extension is `.d3dbsp`, letter case
included, and the files `main` keeps contain no such file, whichever kind of CSV is
generated. -/
theorem C10_should_skip_file_iff :
    (∀ path : Str, should_skip_file path = true ↔ extension path = ".d3dbsp".toList) ∧
    (∀ (csvType : Nat) (files : List Str),
      (select_files csvType files).all (fun f => !should_skip_file f) = true) ∧
    should_skip_file "maps/mp_test.d3dbsp".toList = true ∧
    should_skip_file "maps/mp_test.D3DBSP".toList = false ∧
    should_skip_file "maps/mp_test.d3dbsp.bak".toList = false ∧
    select_files 1 ["a/b.d3dbsp".toList, "a/b.gsc".toList, "a/b.txt".toList]
      = ["a/b.gsc".toList] ∧
    select_files 2 ["a/b.d3dbsp".toList, "a/b.gsc".toList, "a/b.txt".toList]
      = ["a/b.gsc".toList, "a/b.txt".toList] := by
  refine ⟨fun path => ?_, fun csvType files => ?_, by decide, by decide, by decide,
    by decide, by decide⟩
  · simp only [should_skip_file, beq_iff_eq]
  · rw [List.all_eq_true]
    intro f hf
    unfold select_files at hf
    simp only at hf
    split at hf
    · exact (List.mem_filter.1 (List.mem_filter.1 hf).1).2
    · exact (List.mem_filter.1 hf).2

/-! ## Lemmas: the line of a matching rule, permutations of the table -/

theorem rules_nodup : rules.Nodup := by
  decide

/-- Two rules of the table whose folder prefixes start `rel` and whose patterns match
the same name are one rule. -/
theorem rules_unique_for_name (rel name : Str) (r1 r2 : Rule) (h1 : r1 ∈ rules)
    (h2 : r2 ∈ rules)
    (p1 : starts_with rel (r1.folder ++ ['/']) = true)
    (n1 : regex_search name r1.extensionPattern = true)
    (p2 : starts_with rel (r2.folder ++ ['/']) = true)
    (n2 : regex_search name r2.extensionPattern = true) : r1 = r2 := by
  rw [starts_with_iff] at p1 p2
  rcases List.prefix_or_prefix_of_prefix p1 p2 with h | h
  · rcases rules_prefix_cases r1 h1 r2 h2 (List.isPrefixOf_iff_prefix.2 h) with e | ⟨e1, e2⟩
    · exact e
    · exact (techsets_patterns_disjoint _ (e1 ▸ n1) (e2 ▸ n2)).elim
  · rcases rules_prefix_cases r2 h2 r1 h1 (List.isPrefixOf_iff_prefix.2 h) with e | ⟨e1, e2⟩
    · exact e.symm
    · exact (techsets_patterns_disjoint _ (e1 ▸ n2) (e2 ▸ n1)).elim

/-- The scan gives the same result over every reordering of the table. -/
theorem scan_perm_rules (table : List Rule) (hperm : table.Perm rules) (rel : Str) :
    scan table rel = scan rules rel := by
  by_cases h : ∃ r ∈ rules, ruleMatches r rel = true
  · obtain ⟨r, hr, hm⟩ := h
    rw [scan_rules_of_match rel r hr hm]
    exact scan_eq_some_of_unique table rel r (hperm.mem_iff.2 hr) hm
      fun q hq hqm => rule_match_unique rel q r (hperm.mem_iff.1 hq) hr hqm hm
  · have hnone : ∀ r ∈ rules, ruleMatches r rel = false := by
      intro r hr
      by_contra hm
      exact h ⟨r, hr, by simpa using hm⟩
    rw [scan_eq_none rules rel hnone]
    exact scan_eq_none table rel fun r hr => hnone r (hperm.mem_iff.1 hr)

/-- The line of a rule for a file nested at depth 2 or more, or under a forced rule. -/
theorem ruleLine_full_path (rule : Rule) (rel : Str)
    (hnt : rule.folder.getLast? ≠ some '/') (hpfx : rule.folder ++ ['/'] <+: rel)
    (hf : filename rel ≠ [])
    (hd : rule.forceFullPath = true ∨ depthOf rel ≥ 2) :
    ruleLine rule rel = rule.type ++ [','] ++
      (parent_path rel ++ ['/'] ++ stem rel).drop (rule.folder ++ ['/']).length := by
  obtain ⟨h1, h2⟩ := folder_prefix_of_full_path rel rule.folder hnt hpfx hf
  have hc : (rule.forceFullPath || decide (depthOf rel ≥ 2)) = true := by
    rcases hd with h | h
    · rw [h]; rfl
    · rw [decide_eq_true h]; exact Bool.or_true _
  simp only [ruleLine, hc, if_true, (starts_with_iff _ _).2 h1, Bool.true_and, gt_iff_lt, h2,
    decide_True]

/-- The line of an unforced rule for a file at depth 1. -/
theorem ruleLine_stem (rule : Rule) (rel : Str) (hforce : rule.forceFullPath = false)
    (hd : ¬ depthOf rel ≥ 2) : ruleLine rule rel = rule.type ++ [','] ++ stem rel := by
  have hno : starts_with (stem rel) (rule.folder ++ ['/']) = false := by
    rw [Bool.eq_false_iff]
    intro h
    exact slash_not_mem_stem rel (((starts_with_iff _ _).1 h).subset (by simp))
  simp [ruleLine, hforce, hd, hno]

/-- A file whose lower-cased extension is `gsc` has a name that the pattern of the
`maps` rule matches. -/
theorem regex_search_gsc (rel : Str) (hext : extOf rel = "gsc".toList) :
    regex_search (filename rel) (dotExt "gsc" ["gscbin"]) = true := by
  rw [regex_search_dotExt]
  refine ⟨"gsc".toList, by simp, ?_⟩
  have hsuf := extension_suffix_filename rel
  cases hx : extension rel with
  | nil =>
    rw [extOf, hx] at hext
    exact absurd hext (by decide)
  | cons c e =>
    have hc : c = '.' := by
      unfold extension at hx
      simp only at hx
      split at hx
      · cases hx
      · split at hx
        · cases hx
        · exact (List.cons.inj hx).1.symm
    subst hc
    rw [hx] at hsuf
    have he : lower e = "gsc".toList := by
      rw [extOf, hx] at hext
      simpa using hext
    have hl : lower ('.' :: "gsc".toList) = lower ('.' :: e) := by
      show tolower '.' :: lower "gsc".toList = tolower '.' :: lower e
      rw [he]
      decide
    rw [hl]
    exact hsuf.map tolower

/-! ## Lemmas: the flag `forceFullPath` -/

/-- A prefix that ends with the separator and starts `rel` lies within the directory
part of `rel`. -/
theorem folder_prefix_dir (rel folder : Str) (hpfx : folder ++ ['/'] <+: rel) :
    folder ++ ['/'] <+: rel.rdropWhile fun c => c != '/' := by
  obtain ⟨t, ht⟩ := hpfx
  rw [← dir_append_filename rel] at ht
  rcases List.append_eq_append_iff.1 ht with ⟨a, ha, _⟩ | ⟨c, hc, hF⟩
  · exact ⟨a, ha.symm⟩
  · rcases List.eq_nil_or_concat c with rfl | ⟨c0, x, rfl⟩
    · rw [List.append_nil] at hc
      exact hc ▸ List.prefix_refl _
    · have hx : ['/'] = [x] := by
        rw [List.concat_eq_append, ← List.append_assoc] at hc
        exact List.append_inj_right' hc rfl
      have hmem : x ∈ filename rel := by rw [hF]; simp
      rw [← List.singleton_inj.1 hx] at hmem
      exact (slash_not_mem_filename rel hmem).elim

/-- At depth 1 the parent directory of a file under `folder/` is `folder`, a single
segment. -/
theorem parent_path_of_depth_one (rel folder : Str) (hd : depthOf rel = 1)
    (hpfx : folder ++ ['/'] <+: rel) : parent_path rel = folder ∧ '/' ∉ folder := by
  obtain ⟨a, ha⟩ := folder_prefix_dir rel folder hpfx
  obtain ⟨t, ht⟩ := List.rdropWhile_prefix (fun c => c != '/') rel
  have hcount : List.count '/' folder + 1 + List.count '/' a + List.count '/' t = 1 := by
    have h := hd
    rw [depthOf, ← ht, ← ha] at h
    simp only [List.count_append, List.count_singleton_self] at h
    omega
  have hfolder : '/' ∉ folder := List.count_eq_zero.1 (by omega)
  have hane : '/' ∉ a := List.count_eq_zero.1 (by omega)
  have hDne : (rel.rdropWhile fun c => c != '/') ≠ [] := by
    rw [← ha]; simp
  have hDc := rdropWhile_ne_eq_concat rel '/' hDne
  have hanil : a = [] := by
    rcases List.eq_nil_or_concat a with h | ⟨a0, x, rfl⟩
    · exact h
    · exfalso
      rw [← ha, List.concat_eq_append, ← List.append_assoc] at hDc
      have hx : [x] = ['/'] := List.append_inj_right' hDc rfl
      exact hane (by rw [← List.singleton_inj.1 hx]; simp)
  subst hanil
  rw [List.append_nil] at ha
  refine ⟨?_, hfolder⟩
  rw [parent_path, ← ha, List.rdropWhile_concat_pos _ _ _ (by simp),
    List.rdropWhile_eq_self_iff]
  intro hl hlast
  have hmem := List.getLast_mem hl
  have hlast : folder.getLast hl = '/' := by simpa using hlast
  exact hfolder (hlast ▸ hmem)

/-- At depth 1 the line of a matching rule ends with the bare stem, whether the rule is
forced or not. -/
theorem ruleLine_depth_one (q : Rule) (rel : Str) (hd : depthOf rel = 1)
    (hpfx : q.folder ++ ['/'] <+: rel) (hname : filename rel ≠ []) :
    ruleLine q rel = q.type ++ [','] ++ stem rel := by
  obtain ⟨hparent, hfolder⟩ := parent_path_of_depth_one rel q.folder hd hpfx
  cases hforce : q.forceFullPath with
  | false => exact ruleLine_stem q rel hforce (by omega)
  | true =>
    have hnt : q.folder.getLast? ≠ some '/' := by
      intro h
      exact hfolder (List.mem_of_getLast?_eq_some h)
    rw [ruleLine_full_path q rel hnt hpfx hname (Or.inl hforce), hparent, List.drop_left]

theorem ruleLine_setForce (b : Bool) (r : Rule) (rel : Str)
    (hm : ruleMatches r rel = true) (hname : filename rel ≠ []) :
    ruleLine (setForce b r) rel = ruleLine r rel := by
  have hpfx : r.folder ++ ['/'] <+: rel := by
    simp only [ruleMatches, Bool.and_eq_true, starts_with_iff] at hm
    exact hm.1
  by_cases hd : depthOf rel ≥ 2
  · simp [ruleLine, setForce, hd]
  · have hpos : 0 < depthOf rel := List.count_pos_iff.2 (hpfx.subset (by simp))
    have h1 : depthOf rel = 1 := by omega
    rw [ruleLine_depth_one (setForce b r) rel h1 hpfx hname,
      ruleLine_depth_one r rel h1 hpfx hname]
    rfl

theorem scan_map_setForce (f : Rule → Bool) (table : List Rule) (rel : Str)
    (hname : filename rel ≠ []) :
    scan (table.map fun r => setForce (f r) r) rel = scan table rel := by
  induction table with
  | nil => rfl
  | cons r rest ih =>
    rw [List.map_cons, scan, scan, ih]
    have hsame : ruleMatches (setForce (f r) r) rel = ruleMatches r rel := rfl
    rw [hsame]
    by_cases hm : ruleMatches r rel = true
    · rw [if_pos hm, if_pos hm, ruleLine_setForce (f r) r rel hm hname]
    · rw [if_neg hm, if_neg hm]

/-! ## Lemmas: letter case -/

theorem tolower_eq_slash (x : Char) : tolower x = '/' ↔ x = '/' := by
  constructor
  · intro h
    unfold tolower Char.toLower at h
    simp only at h
    split at h
    · rename_i hr
      exfalso
      have h1 := congrArg Char.toNat h
      obtain ⟨hlo, hhi⟩ := hr
      generalize x.toNat = n at h1 hlo hhi
      interval_cases n <;> revert h1 <;> decide
    · exact h
  · rintro rfl
    decide

theorem tolower_idem (x : Char) : tolower (tolower x) = tolower x := by
  by_cases hr : x.toNat ≥ 65 ∧ x.toNat ≤ 90
  · have hx : tolower x = Char.ofNat (x.toNat + 32) := by
      unfold tolower Char.toLower
      simp only
      rw [if_pos hr]
    rw [hx]
    obtain ⟨hlo, hhi⟩ := hr
    generalize x.toNat = n at hlo hhi
    interval_cases n <;> decide
  · have hx : tolower x = x := by
      unfold tolower Char.toLower
      simp only
      rw [if_neg hr]
    rw [hx, hx]

theorem lower_lower (s : Str) : lower (lower s) = lower s := by
  simp only [lower, List.map_map]
  exact List.map_congr_left fun x _ => tolower_idem x

theorem lower_append (s t : Str) : lower (s ++ t) = lower s ++ lower t :=
  List.map_append _ _ _

theorem length_lower (s : Str) : (lower s).length = s.length :=
  List.length_map _ _

/-- Under `icase` the end positions of a match depend on the text only through its
lower-cased form. -/
theorem ends_lower (r : Regex) (s : Str) (i : Nat) :
    r.ends true (lower s) i = r.ends true s i := by
  induction r generalizing i with
  | eps => rfl
  | chr c =>
    simp only [Regex.ends, List.get?_eq_getElem?, lower, List.getElem?_map, translate_true]
    cases s[i]? with
    | none => rfl
    | some x => simp only [Option.map_some', tolower_idem]
  | notChr c =>
    simp only [Regex.ends, List.get?_eq_getElem?, lower, List.getElem?_map, translate_true]
    cases s[i]? with
    | none => rfl
    | some x => simp only [Option.map_some', tolower_idem]
  | bol => rfl
  | eol => simp only [Regex.ends, length_lower]
  | seq a b iha ihb => simp only [Regex.ends, iha, ihb]
  | alt a b iha ihb => simp only [Regex.ends, iha, ihb]
  | plus a iha => simp only [Regex.ends, iha, length_lower]

theorem regex_search_lower (s : Str) (e : BasicRegex) (hic : e.icase = true) :
    regex_search (lower s) e = regex_search s e := by
  simp only [regex_search, hic, ends_lower, length_lower]

theorem rtakeWhile_lower (c : Char) (hc : ∀ x, tolower x = c ↔ x = c) (l : Str) :
    (lower l).rtakeWhile (fun x => x != c) = lower (l.rtakeWhile fun x => x != c) := by
  have hp : ((fun x => x != c) ∘ tolower) = fun x => x != c := by
    funext x
    show (tolower x != c) = (x != c)
    rw [Bool.eq_iff_iff]
    simp only [bne_iff_ne, ne_eq, hc x]
  simp only [List.rtakeWhile, lower, ← List.map_reverse, List.takeWhile_map, hp]

theorem rdropWhile_lower (c : Char) (hc : ∀ x, tolower x = c ↔ x = c) (l : Str) :
    (lower l).rdropWhile (fun x => x != c) = lower (l.rdropWhile fun x => x != c) := by
  have hp : ((fun x => x != c) ∘ tolower) = fun x => x != c := by
    funext x
    show (tolower x != c) = (x != c)
    rw [Bool.eq_iff_iff]
    simp only [bne_iff_ne, ne_eq, hc x]
  simp only [List.rdropWhile, lower, ← List.map_reverse, List.dropWhile_map, hp]

theorem depthOf_lower (rel : Str) : depthOf (lower rel) = depthOf rel := by
  induction rel with
  | nil => rfl
  | cons x xs ih =>
    have hb : (tolower x == '/') = (x == '/') := by
      rw [Bool.eq_iff_iff]
      simp only [beq_iff_eq, tolower_eq_slash]
    simp only [depthOf, lower, List.map_cons, List.count_cons] at ih ⊢
    rw [ih, hb]

theorem filename_lower (p : Str) : filename (lower p) = lower (filename p) :=
  rtakeWhile_lower '/' tolower_eq_slash p

theorem lower_eq_dotdot (f : Str) : lower f = ['.', '.'] ↔ f = ['.', '.'] := by
  constructor
  · intro h
    cases f with
    | nil => simp [lower] at h
    | cons a t =>
      cases t with
      | nil => simp [lower] at h
      | cons b u =>
        cases u with
        | nil =>
          simp only [lower, List.map_cons, List.map_nil, List.cons.injEq, and_true] at h
          rw [(tolower_eq_dot a).1 h.1, (tolower_eq_dot b).1 h.2]
        | cons d v => simp [lower] at h
  · rintro rfl
    decide

theorem extension_lower (p : Str) : extension (lower p) = lower (extension p) := by
  unfold extension
  simp only [filename_lower, lower_eq_dotdot, rdropWhile_lower '.' tolower_eq_dot,
    rtakeWhile_lower '.' tolower_eq_dot, length_lower]
  split
  · rfl
  · split
    · rfl
    · rfl

theorem extOf_lower (p : Str) : extOf (lower p) = extOf p := by
  unfold extOf
  simp only [extension_lower]
  cases extension p with
  | nil => rfl
  | cons x xs =>
    by_cases h : x = '.'
    · subst h
      show lower (lower xs) = lower xs
      exact lower_lower xs
    · have hn : ¬ tolower x = '.' := fun e => h ((tolower_eq_dot x).1 e)
      have h1 : (!(lower (x :: xs)).isEmpty && (lower (x :: xs)).head? == some '.') = false := by
        simp [lower, hn]
      have h2 : (!(x :: xs).isEmpty && (x :: xs).head? == some '.') = false := by
        simp [h]
      simp only [h1, h2]
      exact lower_lower _

theorem rules_icase : ∀ r ∈ rules, r.extensionPattern.icase = true := by
  decide

theorem rootType_no_comma (ext : Str) : ',' ∉ rootType ext := by
  rw [rootType_eq]
  split
  · decide
  · split <;> decide

theorem depthOf_congr (rel rel' : Str) (hl : lower rel = lower rel') :
    depthOf rel = depthOf rel' := by
  rw [← depthOf_lower rel, hl, depthOf_lower]

theorem extOf_congr (rel rel' : Str) (hl : lower rel = lower rel') :
    extOf rel = extOf rel' := by
  rw [← extOf_lower rel, hl, extOf_lower]

theorem regex_search_filename_congr (e : BasicRegex) (hic : e.icase = true) (rel rel' : Str)
    (hl : lower rel = lower rel') :
    regex_search (filename rel) e = regex_search (filename rel') e := by
  rw [← regex_search_lower (filename rel) e hic, ← filename_lower, hl, filename_lower,
    regex_search_lower _ e hic]

theorem starts_with_folder_congr (rel rel' folder : Str)
    (hD : (rel.rdropWhile fun c => c != '/') = rel'.rdropWhile fun c => c != '/') :
    starts_with rel (folder ++ ['/']) = starts_with rel' (folder ++ ['/']) := by
  rw [Bool.eq_iff_iff, starts_with_iff, starts_with_iff]
  constructor
  · intro h
    have h1 := folder_prefix_dir rel folder h
    rw [hD] at h1
    exact h1.trans (List.rdropWhile_prefix _ _)
  · intro h
    have h1 := folder_prefix_dir rel' folder h
    rw [← hD] at h1
    exact h1.trans (List.rdropWhile_prefix _ _)

theorem mapOverride_congr (mapCsvMode : Bool) (rel rel' : Str) (hl : lower rel = lower rel')
    (hD : (rel.rdropWhile fun c => c != '/') = rel'.rdropWhile fun c => c != '/') :
    mapOverride mapCsvMode rel = mapOverride mapCsvMode rel' := by
  have hmaps : "maps/".toList = "maps".toList ++ ['/'] := by decide
  unfold mapOverride
  rw [depthOf_congr rel rel' hl, extOf_congr rel rel' hl, hmaps,
    starts_with_folder_congr rel rel' _ hD]

theorem ruleMatches_congr (r : Rule) (hic : r.extensionPattern.icase = true) (rel rel' : Str)
    (hl : lower rel = lower rel')
    (hD : (rel.rdropWhile fun c => c != '/') = rel'.rdropWhile fun c => c != '/') :
    ruleMatches r rel = ruleMatches r rel' := by
  unfold ruleMatches
  rw [starts_with_folder_congr rel rel' _ hD,
    regex_search_filename_congr _ hic rel rel' hl]

/-- The type of the rule at which the scan stops is the same for two paths that have
the same lower-cased form and the same directory part. -/
theorem scan_typePart_congr (table : List Rule)
    (htab : ∀ r ∈ table, r.extensionPattern.icase = true ∧ ',' ∉ r.type) (rel rel' : Str)
    (hl : lower rel = lower rel')
    (hD : (rel.rdropWhile fun c => c != '/') = rel'.rdropWhile fun c => c != '/') :
    (scan table rel).map typePart = (scan table rel').map typePart := by
  induction table with
  | nil => rfl
  | cons r rest ih =>
    obtain ⟨hic, hcomma⟩ := htab r (List.mem_cons_self _ _)
    rw [scan, scan, ruleMatches_congr r hic rel rel' hl hD]
    by_cases hm : ruleMatches r rel' = true
    · rw [if_pos hm, if_pos hm, Option.map_some', Option.map_some',
        typePart_ruleLine r rel hcomma, typePart_ruleLine r rel' hcomma]
    · rw [if_neg hm, if_neg hm]
      exact ih fun q hq => htab q (List.mem_cons_of_mem _ hq)

theorem typePart_rawfile (p : Str) : typePart ("rawfile,".toList ++ p) = "rawfile".toList := by
  rw [rawfile_comma]
  exact typePart_line _ p (by decide)

theorem classify_typePart_congr (table : List Rule)
    (htab : ∀ r ∈ table, r.extensionPattern.icase = true ∧ ',' ∉ r.type)
    (mapCsvMode : Bool) (rel rel' : Str) (hl : lower rel = lower rel')
    (hD : (rel.rdropWhile fun c => c != '/') = rel'.rdropWhile fun c => c != '/') :
    typePart (classify_with table mapCsvMode rel)
      = typePart (classify_with table mapCsvMode rel') := by
  have hscan := scan_typePart_congr table htab rel rel' hl hD
  unfold classify_with
  rw [mapOverride_congr mapCsvMode rel rel' hl hD, depthOf_congr rel rel' hl]
  split
  · rw [typePart_rawfile, typePart_rawfile]
  · split
    · rw [extOf_congr rel rel' hl, typePart_line _ _ (rootType_no_comma _),
        typePart_line _ _ (rootType_no_comma _)]
    · cases hs : scan table rel with
      | none =>
        cases hs' : scan table rel' with
        | none =>
          simp only [fallbackLine]
          rw [typePart_rawfile, typePart_rawfile]
        | some line' =>
          rw [hs, hs'] at hscan
          cases hscan
      | some line =>
        cases hs' : scan table rel' with
        | none =>
          rw [hs, hs'] at hscan
          cases hscan
        | some line' =>
          rw [hs, hs'] at hscan
          exact Option.some.inj hscan

/-! ## Lemmas: replacing the extension -/

theorem extension_suffix (rel : Str) : extension rel <:+ rel :=
  (extension_suffix_filename rel).trans (List.rtakeWhile_suffix _ _)

theorem take_append_extension (rel : Str) :
    rel.take (rel.length - (extension rel).length) ++ extension rel = rel := by
  have h := List.suffix_iff_eq_drop.1 (extension_suffix rel)
  have h2 := List.take_append_drop (rel.length - (extension rel).length) rel
  rw [← h] at h2
  exact h2

theorem slash_not_mem_extension (rel : Str) : '/' ∉ extension rel :=
  fun h => slash_not_mem_filename rel ((extension_suffix_filename rel).subset h)

theorem slash_not_mem_of_lower_eq (e e' : Str) (h : lower e = lower e') (hs : '/' ∉ e') :
    '/' ∉ e := by
  intro hm
  have h1 : tolower '/' ∈ lower e := List.mem_map_of_mem _ hm
  rw [h] at h1
  obtain ⟨x, hx, hxe⟩ := List.mem_map.1 h1
  have h2 : tolower '/' = '/' := by decide
  rw [h2] at hxe
  exact hs ((tolower_eq_slash x).1 hxe ▸ hx)

theorem withExtension_lower (rel e : Str) (hcase : lower e = lower (extension rel)) :
    lower (withExtension rel e) = lower rel := by
  rw [withExtension, lower_append, hcase, ← lower_append, take_append_extension]

theorem withExtension_dir (rel e : Str) (hcase : lower e = lower (extension rel)) :
    ((withExtension rel e).rdropWhile fun c => c != '/') = rel.rdropWhile fun c => c != '/' := by
  have he : ∀ x ∈ e, (x != '/') = true := by
    intro x hx
    have hne : x ≠ '/' := fun h =>
      slash_not_mem_of_lower_eq e _ hcase (slash_not_mem_extension rel) (h ▸ hx)
    simpa using hne
  have hx : ∀ x ∈ extension rel, (x != '/') = true := by
    intro x hx
    have hne : x ≠ '/' := fun h => slash_not_mem_extension rel (h ▸ hx)
    simpa using hne
  have h1 := rdropWhile_append_of_all (fun c => c != '/')
    (rel.take (rel.length - (extension rel).length)) e he
  have h2 := rdropWhile_append_of_all (fun c => c != '/')
    (rel.take (rel.length - (extension rel).length)) (extension rel) hx
  rw [take_append_extension] at h2
  exact h1.trans h2.symm

/-- The extension of the path with `e` in place of the extension is `e`, when `e` is the
extension in another letter case. -/
theorem extension_withExtension (rel e : Str) (hcase : lower e = lower (extension rel)) :
    extension (withExtension rel e) = e := by
  have hl := withExtension_lower rel e hcase
  have h1 : lower (extension (withExtension rel e)) = lower e := by
    rw [← extension_lower, hl, extension_lower, hcase]
  have hlen : (extension (withExtension rel e)).length = e.length := by
    have := congrArg List.length h1
    simpa only [length_lower] using this
  have hs1 := extension_suffix (withExtension rel e)
  have hs2 : e <:+ withExtension rel e := List.suffix_append _ _
  exact (List.suffix_of_suffix_length_le hs1 hs2 (le_of_eq hlen)).eq_of_length hlen

/-! ## Lemmas: the file system -/

/-- C12: extension matching ignores letter case: for every path and either mode, the
path with its extension replaced by the same extension in another letter case has that
text as its extension and gets a line with the same type part. -/
theorem C12_extension_case_insensitive (mapCsvMode : Bool) (rel e : Str)
    (hcase : lower e = lower (extension rel)) :
    extension (withExtension rel e) = e ∧
    typePart (classify_and_format mapCsvMode (withExtension rel e))
      = typePart (classify_and_format mapCsvMode rel) :=
  ⟨extension_withExtension rel e hcase,
   classify_typePart_congr rules
     (fun r hr => ⟨rules_icase r hr, (rules_type_no_comma r hr).2⟩) mapCsvMode _ _
     (withExtension_lower rel e hcase) (withExtension_dir rel e hcase)⟩

/-- C12, witness: `weapons/Foo.JSON` has type `weapon` like `weapons/Foo.json`, and the
root file `a.CSV` has type `stringtable` like `a.csv`. -/
theorem C12_extension_case_insensitive_witness :
    withExtension "weapons/Foo.json".toList ".JSON".toList = "weapons/Foo.JSON".toList ∧
    typePart (classify_and_format false "weapons/Foo.JSON".toList) = "weapon".toList ∧
    typePart (classify_and_format false "weapons/Foo.json".toList) = "weapon".toList ∧
    typePart (classify_and_format true "a.CSV".toList) = "stringtable".toList ∧
    typePart (classify_and_format true "a.csv".toList) = "stringtable".toList := by
  have h1 := (C12_extension_case_insensitive false "weapons/Foo.json".toList ".JSON".toList
    (by decide)).2
  have h2 := (C12_extension_case_insensitive true "a.csv".toList ".CSV".toList
    (by decide)).2
  have e1 : withExtension "weapons/Foo.json".toList ".JSON".toList
      = "weapons/Foo.JSON".toList := by decide
  have e2 : withExtension "a.csv".toList ".CSV".toList = "a.CSV".toList := by decide
  rw [e1] at h1
  rw [e2] at h2
  have t1 : typePart (classify_and_format false "weapons/Foo.json".toList)
      = "weapon".toList := by decide
  have t2 : typePart (classify_and_format true "a.csv".toList) = "stringtable".toList := by
    decide
  exact ⟨e1, h1.trans t1, t1, h2.trans t2, t2⟩

/-- C13, as stated, fails: the table has a rule, the one for `techsets/ps`, whose folder
holds the separator `/`. -/
theorem C13_folder_with_separator :
    Rule.row "techsets/ps" (dotExt "hlsl_h2" ["cso"]) "pixelshader" false ∈ rules ∧
    '/' ∈ (Rule.row "techsets/ps" (dotExt "hlsl_h2" ["cso"]) "pixelshader" false).folder ∧
    ¬ (∀ r ∈ rules, '/' ∉ r.folder) := by
  decide

/-- C13, amended: the rules whose folder holds a `/` are exactly the two for
`techsets/ps` and `techsets/vs`, each of two segments; the folder of each of the other
32 rules is a single segment. -/
theorem C13_folders_single_segment_except_two :
    (rules.filter fun r => r.folder.contains '/').map Rule.folder
      = ["techsets/ps".toList, "techsets/vs".toList] ∧
    ((rules.filter fun r => !r.folder.contains '/').length = 32) ∧
    rules.all (fun r => decide (depthOf r.folder ≤ 1)) = true ∧
    rules.all (fun r => !r.folder.isEmpty && r.folder.head? != some '/'
      && r.folder.getLast? != some '/') = true := by
  decide

/-- C14: for a file with a non-empty base name, the flag `forceFullPath` has no effect:
a rule that matches the file gives the same line with the flag true and with the flag
false, and the classifier returns the same line over any table whatever values the flags
of its rules are changed to. -/
theorem C14_forceFullPath_no_effect (mapCsvMode : Bool) (rel : Str)
    (hname : filename rel ≠ []) :
    (∀ rule : Rule, ruleMatches rule rel = true →
      ruleLine (setForce true rule) rel = ruleLine (setForce false rule) rel) ∧
    (∀ (table : List Rule) (f : Rule → Bool),
      classify_with (table.map fun r => setForce (f r) r) mapCsvMode rel
        = classify_with table mapCsvMode rel) := by
  constructor
  · intro rule hm
    rw [ruleLine_setForce true rule rel hm hname, ruleLine_setForce false rule rel hm hname]
  · intro table f
    simp only [classify_with, scan_map_setForce f table rel hname]

/-- C14, witness: `rumble` is the only forced rule, and `rumble/foo` gives `rawfile,foo`
with the flag as it is and with every flag cleared. -/
theorem C14_forceFullPath_no_effect_witness :
    (rules.filter fun r => r.forceFullPath).map Rule.folder = ["rumble".toList] ∧
    classify_and_format false "rumble/foo".toList = "rawfile,foo".toList ∧
    classify_with (rules.map fun r => setForce false r) false "rumble/foo".toList
      = "rawfile,foo".toList :=
  ⟨by decide, by decide,
   ((C14_forceFullPath_no_effect false "rumble/foo".toList (by decide)).2 rules
      fun _ => false).trans (by decide)⟩

/-- C15: for every relative path and every base name, at most one rule of the table has
its folder prefix starting the path and its pattern matching the name; and the
classifier returns the same line over every reordering of the table. -/
theorem C15_table_unambiguous (mapCsvMode : Bool) (rel name : Str) (table : List Rule)
    (hperm : table.Perm rules) :
    (rules.filter fun r =>
      starts_with rel (r.folder ++ ['/']) && regex_search name r.extensionPattern).length ≤ 1 ∧
    classify_with table mapCsvMode rel = classify_and_format mapCsvMode rel := by
  constructor
  · have hnd := rules_nodup.filter
      (fun r => starts_with rel (r.folder ++ ['/']) && regex_search name r.extensionPattern)
    generalize hl : (rules.filter fun r =>
      starts_with rel (r.folder ++ ['/']) && regex_search name r.extensionPattern) = l at hnd
    have hmem : ∀ r ∈ l, r ∈ rules ∧ starts_with rel (r.folder ++ ['/']) = true ∧
        regex_search name r.extensionPattern = true := by
      intro r hr
      rw [← hl, List.mem_filter, Bool.and_eq_true] at hr
      exact hr
    match l, hnd, hmem with
    | [], _, _ => simp
    | [_], _, _ => simp
    | a :: b :: t, hnd, hmem =>
      exfalso
      obtain ⟨ha, hap, han⟩ := hmem a (by simp)
      obtain ⟨hb, hbp, hbn⟩ := hmem b (by simp)
      have hab : a = b := rules_unique_for_name rel name a b ha hb hap han hbp hbn
      rw [hab] at hnd
      exact (List.nodup_cons.1 hnd).1 (by simp)
  · simp only [classify_and_format, classify_with, scan_perm_rules table hperm rel]

/-- C15, witness: over the table in reverse order `techsets/ps/foo.cso` and
`materials/sub/bar.json` are classified as over the table itself. -/
theorem C15_table_unambiguous_witness :
    classify_with rules.reverse false "techsets/ps/foo.cso".toList = "pixelshader,foo".toList ∧
    classify_with rules.reverse true "materials/sub/bar.json".toList
      = "material,sub/bar".toList :=
  ⟨(C15_table_unambiguous false "techsets/ps/foo.cso".toList "foo.cso".toList rules.reverse
      (List.reverse_perm rules)).2.trans (by decide),
   (C15_table_unambiguous true "materials/sub/bar.json".toList "bar.json".toList rules.reverse
      (List.reverse_perm rules)).2.trans (by decide)⟩

/-- C16: for a file that is not at depth at least 1, under `maps/` and of lower-cased
extension `gsc`, `classify_and_format` returns the same line in both modes; for a file
that is, map mode returns `rawfile,` and `rel` unchanged, normal mode returns
`scriptfile,` and a path built from the stem (the stem at depth 1, and beyond it the
parent directory, `/` and the stem with the leading `maps/` removed), and the two
lines differ. -/
theorem C16_mode_matters_only_for_maps_gsc (rel : Str) :
    (¬ (depthOf rel ≥ 1 ∧ starts_with rel "maps/".toList = true ∧ extOf rel = "gsc".toList) →
      classify_and_format true rel = classify_and_format false rel) ∧
    ((depthOf rel ≥ 1 ∧ starts_with rel "maps/".toList = true ∧ extOf rel = "gsc".toList) →
      classify_and_format true rel = "rawfile,".toList ++ rel ∧
      classify_and_format false rel = "scriptfile,".toList ++
        (if depthOf rel ≥ 2 then (parent_path rel ++ ['/'] ++ stem rel).drop 5
         else stem rel) ∧
      typePart (classify_and_format false rel) = "scriptfile".toList ∧
      classify_and_format true rel ≠ classify_and_format false rel) := by
  have hoff : mapOverride false rel = false := by simp [mapOverride]
  constructor
  · intro hnot
    have hov : mapOverride true rel = false := by
      rw [Bool.eq_false_iff]
      intro h
      simp only [mapOverride, Bool.and_eq_true, Bool.true_and, decide_eq_true_eq,
        beq_iff_eq] at h
      exact hnot ⟨h.1.1, h.1.2, h.2⟩
    simp only [classify_and_format, classify_with, hov, hoff]
  · rintro ⟨hdepth, hmaps, hext⟩
    have hov : mapOverride true rel = true := by
      rw [mapOverride, hmaps, hext, decide_eq_true hdepth]
      decide
    have hm : ruleMatches (Rule.row "maps" (dotExt "gsc" ["gscbin"]) "scriptfile" false) rel
        = true := by
      simp only [ruleMatches, Bool.and_eq_true]
      exact ⟨hmaps, regex_search_gsc rel hext⟩
    have hmem : Rule.row "maps" (dotExt "gsc" ["gscbin"]) "scriptfile" false ∈ rules := by
      decide
    have htrue : classify_and_format true rel = "rawfile,".toList ++ rel := by
      simp [classify_and_format, classify_with, hov]
    have hfalse : classify_and_format false rel = "scriptfile,".toList ++
        (if depthOf rel ≥ 2 then (parent_path rel ++ ['/'] ++ stem rel).drop 5
         else stem rel) := by
      rw [classify_of_match false rel _ hmem hdepth hoff hm]
      have hcomma : "scriptfile,".toList = "scriptfile".toList ++ [','] := by decide
      rw [hcomma]
      by_cases hd : depthOf rel ≥ 2
      · rw [if_pos hd]
        exact ruleLine_full_path _ rel (by decide) ((starts_with_iff _ _).1 hmaps)
          (ruleMatches_filename_ne_nil _ hmem rel hm) (Or.inr hd)
      · rw [if_neg hd]
        exact ruleLine_stem _ rel rfl hd
    refine ⟨htrue, hfalse, ?_, ?_⟩
    · rw [classify_of_match false rel _ hmem hdepth hoff hm]
      exact typePart_ruleLine _ rel (by decide)
    · rw [htrue, hfalse]
      intro h
      have h1 : "rawfile,".toList = 'r' :: "awfile,".toList := by decide
      have h2 : "scriptfile,".toList = 's' :: "criptfile,".toList := by decide
      rw [h1, h2, List.cons_append, List.cons_append] at h
      exact absurd (List.cons.inj h).1 (by decide)

/-- C16, witness: a header file under `maps/` is classified alike in both modes, and
the script `maps/mp/mp_test.gsc` is not. -/
theorem C16_mode_matters_only_for_maps_gsc_witness :
    classify_and_format true "maps/mp/mp_test.h".toList
      = classify_and_format false "maps/mp/mp_test.h".toList ∧
    classify_and_format true "maps/mp/mp_test.gsc".toList
      = "rawfile,maps/mp/mp_test.gsc".toList ∧
    classify_and_format false "maps/mp/mp_test.gsc".toList = "scriptfile,mp/mp_test".toList ∧
    classify_and_format false "maps/mp_test.GSC".toList = "scriptfile,mp_test".toList :=
  ⟨(C16_mode_matters_only_for_maps_gsc "maps/mp/mp_test.h".toList).1 (by decide),
   ((C16_mode_matters_only_for_maps_gsc "maps/mp/mp_test.gsc".toList).2 (by decide)).1,
   ((C16_mode_matters_only_for_maps_gsc "maps/mp/mp_test.gsc".toList).2
      (by decide)).2.1.trans (by decide),
   ((C16_mode_matters_only_for_maps_gsc "maps/mp_test.GSC".toList).2
      (by decide)).2.1.trans (by decide)⟩

end GenerateCSV
